import Mathlib

/-!
Verification of the `rust-actions` workflow engine (crates/rust-actions).

This file shallowly embeds the parts of the engine that the claims are
about:

* the JSON-like value model (`serde_json::Value`) as `Value`, with maps
  embedded as association lists (`List (String × _)`); JSON numbers are
  modelled as `Int` (none of the verified code paths depends on float
  representation — the few places where the source calls into floating
  point or into the external `serde_json` parser are modelled as explicit
  oracle parameters, see `ExtOracle`);
* `expr.rs`: `evaluate`, `evaluate_value`, `evaluate_assertion`,
  `evaluate_expr`, `evaluate_expr_value`, `navigate_value`,
  `find_operator`, `compare_values`, `value_contains`;
* `matrix.rs`: `expand_matrix_inner`, `cartesian_product`,
  `matches_exclude`, `values_equal`;
* `runner.rs`: `toposort_jobs`, `run_step`, the step loop of `run_job`,
  `JobResult::passed`, `WorkflowResult::jobs_failed`;
* `validate.rs`: `validate_job_uses`;
* `workflow_registry.rs`: `is_file_ref`, `parse_file_ref`.
-/

namespace RustActions

/-- Named character constants for the delimiter and escape characters of
the engine's expression syntax (`${{ … }}`, quoted operands, backslash
escapes). -/
def lbrace : Char := Char.ofNat 123

def rbrace : Char := Char.ofNat 125

def backslashChar : Char := Char.ofNat 92

def squoteChar : Char := Char.ofNat 39

def dquoteChar : Char := Char.ofNat 34

/-- Model of `serde_json::Value`.  Objects (`serde_json::Map`) are
embedded as association lists; JSON numbers are modelled as `Int`
(the claims under verification never exercise non-integral numbers). -/
inductive Value where
  | null : Value
  | bool : Bool → Value
  | num : Int → Value
  | str : String → Value
  | arr : List Value → Value
  | obj : List (String × Value) → Value
deriving Inhabited

namespace Value

def isObj : Value → Bool
  | .obj _ => true
  | _ => false

def isArr : Value → Bool
  | .arr _ => true
  | _ => false

def isStr : Value → Bool
  | .str _ => true
  | _ => false

end Value

mutual
/-- Structural equality of values, modelling `PartialEq` on
`serde_json::Value` (objects produced by the engine are canonical
association lists, so list equality coincides with map equality). -/
def beqV : Value → Value → Bool
  | .null, .null => true
  | .bool a, .bool b => a == b
  | .num a, .num b => a == b
  | .str a, .str b => a == b
  | .arr a, .arr b => beqArr a b
  | .obj a, .obj b => beqObj a b
  | _, _ => false
termination_by v _ => sizeOf v

/-- Elementwise equality of value lists (helper for `beqV`). -/
def beqArr : List Value → List Value → Bool
  | [], [] => true
  | x :: xs, y :: ys => beqV x y && beqArr xs ys
  | _, _ => false
termination_by l _ => sizeOf l

/-- Pairwise equality of object entry lists (helper for `beqV`). -/
def beqObj : List (String × Value) → List (String × Value) → Bool
  | [], [] => true
  | (k, v) :: xs, (k', v') :: ys => k == k' && beqV v v' && beqObj xs ys
  | _, _ => false
termination_by l _ => sizeOf l
end

/-- String containment, modelling Rust `str::contains` (substring test). -/
def strContains (h n : String) : Bool := decide (n.data <:+: h.data)

mutual
/-- Model of `value_contains` from `expr.rs` (the `contains` operator).
The object and array cases iterate the needle and scan the haystack,
exactly as the source closures do; the iteration is split into the named
helpers below so that the recursion is structural. -/
def value_contains : Value → Value → Bool
  | .obj h, .obj n => vcObjAll h n
  | .arr h, .arr n => vcArrAll h n
  | .arr h, needle => vcArrAny h needle
  | .str h, .str n => strContains h n
  | _, _ => false
termination_by h n => sizeOf h + sizeOf n

/-- Helper for `value_contains` on `(Object, Object)`: every needle entry
must be matched in the haystack (`n.iter().all(..)` in the source). -/
def vcObjAll (h : List (String × Value)) : List (String × Value) → Bool
  | [] => true
  | (k, v) :: rest => vcField h k v && vcObjAll h rest
termination_by n => sizeOf h + sizeOf n

/-- Helper for `value_contains`: `h.get(k)` followed by the recursive
check on its value (the body of the `all` closure in the source). -/
def vcField : List (String × Value) → String → Value → Bool
  | [], _, _ => false
  | (k', hv) :: t, k, v =>
    if k' == k then
      if v.isObj || v.isArr then value_contains hv v else beqV hv v
    else vcField t k v
termination_by h _ v => sizeOf h + sizeOf v

/-- Helper for `value_contains` on `(Array, Array)`: every needle element
must be contained in the haystack. -/
def vcArrAll (h : List Value) : List Value → Bool
  | [] => true
  | ni :: rest => vcArrAny h ni && vcArrAll h rest
termination_by n => sizeOf h + sizeOf n

/-- Helper for `value_contains`: some haystack element matches the needle
(the `h.iter().any(..)` closure of the source; objects recurse, other
values compare by equality). -/
def vcArrAny : List Value → Value → Bool
  | [], _ => false
  | hi :: t, ni =>
    (if ni.isObj then value_contains hi ni else beqV hi ni) || vcArrAny t ni
termination_by h ni => sizeOf h + sizeOf ni
end

mutual
/-- Well-formedness of a value as produced by `serde_json`: object key
sets are duplicate-free, recursively.  (A `serde_json::Map` cannot hold
two entries with the same key; the association-list embedding can, so
object-valued theorems assume this invariant.) -/
def wfV : Value → Bool
  | .obj l => decide ((l.map Prod.fst).Nodup) && wfObjList l
  | .arr l => wfArrList l
  | _ => true
termination_by v => sizeOf v

/-- Helper for `wfV`: all values of an object entry list are well formed. -/
def wfObjList : List (String × Value) → Bool
  | [] => true
  | (_, v) :: t => wfV v && wfObjList t
termination_by l => sizeOf l

/-- Helper for `wfV`: all elements of an array are well formed. -/
def wfArrList : List Value → Bool
  | [] => true
  | v :: t => wfV v && wfArrList t
termination_by l => sizeOf l
end

/-- Hex digit for JSON `\u00XX` escapes. -/
def hexDigit (n : Nat) : Char :=
  if n < 10 then Char.ofNat (48 + n) else Char.ofNat (87 + n)

/-- Escape one character as `serde_json` serialises string contents. -/
def escapeJsonChar (c : Char) : List Char :=
  if c = dquoteChar then [backslashChar, dquoteChar]
  else if c = backslashChar then [backslashChar, backslashChar]
  else if c = Char.ofNat 8 then [backslashChar, 'b']
  else if c = Char.ofNat 12 then [backslashChar, 'f']
  else if c = Char.ofNat 10 then [backslashChar, 'n']
  else if c = Char.ofNat 13 then [backslashChar, 'r']
  else if c = Char.ofNat 9 then [backslashChar, 't']
  else if c.toNat < 32 then
    [backslashChar, 'u', '0', '0', hexDigit (c.toNat / 16), hexDigit (c.toNat % 16)]
  else [c]

/-- JSON string literal for `s`, as `serde_json` prints it. -/
def jsonQuote (s : String) : String :=
  String.mk (dquoteChar :: (s.data.foldr (fun c acc => escapeJsonChar c ++ acc) [dquoteChar]))

mutual
/-- Compact JSON serialisation of a value, modelling
`serde_json::Value::to_string` (the `Display` impl). -/
def jsonRender : Value → String
  | .null => "null"
  | .bool b => if b then "true" else "false"
  | .num n => toString n
  | .str s => jsonQuote s
  | .arr l => String.mk ('[' :: (jsonRenderArr l).data ++ [']'])
  | .obj l => String.mk (lbrace :: (jsonRenderObj l).data ++ [rbrace])
termination_by v => sizeOf v

/-- Comma-separated rendering of array elements (helper for `jsonRender`). -/
def jsonRenderArr : List Value → String
  | [] => ""
  | [v] => jsonRender v
  | v :: t => jsonRender v ++ "," ++ jsonRenderArr t
termination_by l => sizeOf l

/-- Comma-separated rendering of object entries (helper for `jsonRender`). -/
def jsonRenderObj : List (String × Value) → String
  | [] => ""
  | [(k, v)] => jsonQuote k ++ ":" ++ jsonRender v
  | (k, v) :: t => jsonQuote k ++ ":" ++ jsonRender v ++ "," ++ jsonRenderObj t
termination_by l => sizeOf l
end

/-- Error kinds from `error.rs` that the embedded code paths can produce.
`fuelExhausted` is a model artifact: the recursion of `toposort_jobs` is
unbounded in the source and is embedded with fuel; the theorems show the
fuel never runs out on the inputs of interest. -/
inductive Error where
  | expression (msg : String)
  | envVar (name : String)
  | circularDependency (chain : String)
  | jobDependencyNotFound (job dependency : String)
  | workflowNotFound (path : String)
  | invalidFileRef (uses : String)
  | custom (msg : String)
  | fuelExhausted
deriving DecidableEq, Inhabited

/-- Rendering of `Error` via its `thiserror`-derived `Display` impl. -/
def Error.toMessage : Error → String
  | .expression msg => "Expression error: " ++ msg
  | .envVar name => "Environment variable not found: " ++ name
  | .circularDependency chain => "Circular dependency detected: " ++ chain
  | .jobDependencyNotFound job dep => "Job dependency not found: " ++ job ++ " requires " ++ dep
  | .workflowNotFound path => "Workflow not found: " ++ path
  | .invalidFileRef uses => "Invalid file reference: " ++ uses
  | .custom msg => msg
  | .fuelExhausted => "fuel exhausted (model artifact)"

/-- Name→value maps (`StepOutputs.values`, `JobOutputs.outputs`,
`MatrixCombination`, …) are embedded as association lists with
lookup-by-first-match. -/
abbrev OutMap := List (String × Value)

/-- Insertion into an embedded hash map: the new binding shadows and
removes any previous binding of the same key (`HashMap::insert`). -/
def insertKV {β : Type} (k : String) (v : β) (m : List (String × β)) : List (String × β) :=
  (k, v) :: m.filter (fun p => p.1 != k)

/-- Lookup in an embedded map (`HashMap::get`). -/
def mapGet {β : Type} (m : List (String × β)) (k : String) : Option β :=
  List.lookup k m

/-- Model of `StepOutputs::get_string` from `outputs.rs`: strings pass
through unquoted, every other value uses its JSON rendering. -/
def stepOutputs_get_string (m : OutMap) (k : String) : Option String :=
  match mapGet m k with
  | some (.str s) => some s
  | some v => some (jsonRender v)
  | none => none

/-- Model of `JobOutputs::get_string` from `expr.rs` (numbers and bools
take their own `to_string` branch; the result agrees with the generic
JSON rendering). -/
def jobOutputs_get_string (m : OutMap) (k : String) : Option String :=
  match mapGet m k with
  | some (.str s) => some s
  | some (.num n) => some (toString n)
  | some (.bool b) => some (if b then "true" else "false")
  | some v => some (jsonRender v)
  | none => none

/-- Model of `JobOutputs::to_value` / `StepOutputs::to_value`. -/
def outMapToValue (m : OutMap) : Value := .obj m

/-- Container metadata from `expr.rs`. -/
structure ContainerInfo where
  url : String
  host : String
  port : Nat
deriving DecidableEq, Inhabited

/-- Model of `ExprContext` from `expr.rs`. -/
structure ExprContext where
  env : List (String × String)
  steps : List (String × OutMap)
  background : List (String × OutMap)
  containers : List (String × ContainerInfo)
  outputs : Option OutMap
  matrix : List (String × Value)
  needs : List (String × OutMap)
  jobs : List (String × OutMap)
deriving Inhabited

/-- Model of `ExprContext::new`. -/
def ExprContext.new : ExprContext :=
  ⟨[], [], [], [], none, [], [], []⟩

/-- Model of `ExprContext::with_outputs`: a clone whose `outputs` field is
set to the given step outputs. -/
def ExprContext.with_outputs (ctx : ExprContext) (o : OutMap) : ExprContext :=
  { ctx with outputs := some o }

/-- Oracle for the pieces of the evaluator that call out of the shallow
embedding: `serde_json::from_str` (an external crate) and the `f64`
parsing/comparison paths (floating point is not embeddable).  The
verified claims hold for every oracle. -/
structure ExtOracle where
  parseJson : String → Except String Value
  parseF64 : String → Option Value
  cmpNum : Value → Value → Option Ordering

/-- Prefix test over the character list, modelling `str::starts_with`
(structural, unlike `String.startsWith`, so concrete instances evaluate
definitionally). -/
def strStartsWith (s pre : String) : Bool :=
  pre.data.isPrefixOf s.data

/-- Drop of a character prefix, modelling `&s[n..]` on ASCII strings. -/
def strDrop (s : String) (n : Nat) : String :=
  String.mk (s.data.drop n)

/-- Whitespace trim on both ends, modelling `str::trim` (ASCII
whitespace; the engine's expressions are ASCII). -/
def strTrim (s : String) : String :=
  String.mk (((s.data.dropWhile Char.isWhitespace).reverse.dropWhile Char.isWhitespace).reverse)

/-- Model of Rust `str::split(c)` over the character list: splitting on
a separator character, keeping empty segments (structural, so that
concrete path expressions evaluate definitionally). -/
def splitChar (c : Char) : List Char → List (List Char)
  | [] => [[]]
  | x :: rest =>
    if x = c then [] :: splitChar c rest
    else
      match splitChar c rest with
      | h :: t => (x :: h) :: t
      | [] => [[x]]

/-- Model of `expr.split('.')` producing strings. -/
def splitDots (s : String) : List String :=
  (splitChar '.' s.data).map String.mk

/-- Model of `str::parse::<usize>`: an optional `+` sign followed by one
or more decimal digits (the embedding ignores the `usize` range bound). -/
def parseUsize (s : String) : Option Nat :=
  let digits := if strStartsWith s ("+") then s.data.drop 1 else s.data
  if digits.isEmpty || !digits.all Char.isDigit then none
  else some (digits.foldl (fun acc c => acc * 10 + (c.toNat - 48)) 0)

/-- Model of `navigate_value` from `expr.rs`: recursive descent through
object fields and array indices. -/
def navigate_value (value : Value) : List String → Except Error Value
  | [] => .ok value
  | seg :: rest =>
    match value with
    | .obj map =>
      match mapGet map seg with
      | some next => navigate_value next rest
      | none => .error (.expression ("Field not found: " ++ seg))
    | .arr a =>
      match parseUsize seg with
      | some index =>
        match a[index]? with
        | some next => navigate_value next rest
        | none => .error (.expression ("Array index out of bounds: " ++ toString index))
      | none => .error (.expression ("Invalid array index: " ++ seg))
    | _ => .error (.expression "Cannot navigate into non-object/array value")

/-- Model of `str::parse::<i64>`: optional sign, one or more decimal
digits, and the `i64` range check (overflow makes the parse fail, sending
the operand to the `f64` branch). -/
def parseI64 (s : String) : Option Int :=
  let (negSign, digits) :=
    if strStartsWith s ("-") then (true, s.data.drop 1)
    else if strStartsWith s ("+") then (false, s.data.drop 1)
    else (false, s.data)
  if digits.isEmpty || !digits.all Char.isDigit then none
  else
    let mag : Nat := digits.foldl (fun acc c => acc * 10 + (c.toNat - 48)) 0
    let n : Int := if negSign then -(mag : Int) else (mag : Int)
    if -(2 ^ 63) ≤ n ∧ n < 2 ^ 63 then some n else none

/-- Model of `evaluate_expr_value` from `expr.rs` after the
`expr.split('.')` step: the `match parts.as_slice()` arms, in source
order.  Note that there is no arm for `steps.<id>.outputs.<field>.<…>`
with further segments — unlike `needs`, such paths fall through to the
final `Unknown expression` arm. -/
def evalValueParts (ctx : ExprContext) (expr : String) : List String → Except Error Value
  | ["outputs"] =>
    match ctx.outputs with
    | some o => .ok (outMapToValue o)
    | none => .error (.expression "No outputs context available")
  | ["outputs", field] =>
    match ctx.outputs.bind (fun o => mapGet o field) with
    | some v => .ok v
    | none => .error (.expression ("Output not found: " ++ field))
  | "outputs" :: field :: rest =>
    match ctx.outputs.bind (fun o => mapGet o field) with
    | some base => navigate_value base rest
    | none => .error (.expression ("Output not found: " ++ field))
  | ["env", var_name] =>
    match List.lookup var_name ctx.env with
    | some s => .ok (.str s)
    | none => .error (.envVar var_name)
  | ["steps", step_id, "outputs"] =>
    match mapGet ctx.steps step_id with
    | some o => .ok (outMapToValue o)
    | none => .error (.expression ("Step not found: " ++ step_id))
  | ["steps", step_id, "outputs", field] =>
    match (mapGet ctx.steps step_id).bind (fun o => mapGet o field) with
    | some v => .ok v
    | none => .error (.expression ("Step output not found: " ++ step_id ++ "." ++ field))
  | ["containers", name, prop] =>
    match mapGet ctx.containers name with
    | some container =>
      if prop = "url" then .ok (.str container.url)
      else if prop = "host" then .ok (.str container.host)
      else if prop = "port" then .ok (.num container.port)
      else .error (.expression ("Unknown container property: " ++ prop))
    | none => .error (.expression ("Container not found: " ++ name))
  | ["needs", job_name, "outputs"] =>
    match mapGet ctx.needs job_name with
    | some o => .ok (outMapToValue o)
    | none => .error (.expression ("Job not found in needs: " ++ job_name))
  | ["needs", job_name, "outputs", field] =>
    match (mapGet ctx.needs job_name).bind (fun o => mapGet o field) with
    | some v => .ok v
    | none => .error (.expression ("Job output not found: " ++ job_name ++ "." ++ field))
  | "needs" :: job_name :: "outputs" :: field :: rest =>
    match (mapGet ctx.needs job_name).bind (fun o => mapGet o field) with
    | some base => navigate_value base rest
    | none => .error (.expression ("Job output not found: " ++ job_name ++ "." ++ field))
  | ["matrix", key] =>
    match mapGet ctx.matrix key with
    | some v => .ok v
    | none => .error (.expression ("Matrix key not found: " ++ key))
  | ["jobs", job_name, "outputs"] =>
    match mapGet ctx.jobs job_name with
    | some o => .ok (outMapToValue o)
    | none => .error (.expression ("Job not found: " ++ job_name))
  | ["jobs", job_name, "outputs", field] =>
    match (mapGet ctx.jobs job_name).bind (fun o => mapGet o field) with
    | some v => .ok v
    | none => .error (.expression ("Job output not found: " ++ job_name ++ "." ++ field))
  | _ => .error (.expression ("Unknown expression: " ++ expr))

/-- Model of `evaluate_expr_value` from `expr.rs` (dot-split then the
pattern match above). -/
def evaluate_expr_value (expr : String) (ctx : ExprContext) : Except Error Value :=
  evalValueParts ctx expr (splitDots expr)

/-- Model of `value_to_string` from `expr.rs` (used by the `matrix.<k>`
arm of string interpolation). -/
def value_to_string : Value → String
  | .str s => s
  | .num n => toString n
  | .bool b => if b then "true" else "false"
  | .null => "null"
  | v => jsonRender v

/-- Model of `evaluate_expr` from `expr.rs` (the string-interpolation path
evaluator) after the `expr.split('.')` step, arms in source order. -/
def evalStrParts (ctx : ExprContext) (expr : String) : List String → Except Error String
  | ["env", var_name] =>
    match List.lookup var_name ctx.env with
    | some s => .ok s
    | none => .error (.envVar var_name)
  | ["steps", step_id, "outputs", field] =>
    match (mapGet ctx.steps step_id).bind (fun o => stepOutputs_get_string o field) with
    | some s => .ok s
    | none => .error (.expression ("Step output not found: " ++ step_id ++ "." ++ field))
  | ["background", step_id, "outputs", field] =>
    match (mapGet ctx.background step_id).bind (fun o => stepOutputs_get_string o field) with
    | some s => .ok s
    | none => .error (.expression ("Background output not found: " ++ step_id ++ "." ++ field))
  | ["containers", name, "url"] =>
    match mapGet ctx.containers name with
    | some c => .ok c.url
    | none => .error (.expression ("Container not found: " ++ name))
  | ["containers", name, "host"] =>
    match mapGet ctx.containers name with
    | some c => .ok c.host
    | none => .error (.expression ("Container not found: " ++ name))
  | ["containers", name, "port"] =>
    match mapGet ctx.containers name with
    | some c => .ok (toString c.port)
    | none => .error (.expression ("Container not found: " ++ name))
  | ["needs", job_name, "outputs", field] =>
    match (mapGet ctx.needs job_name).bind (fun o => jobOutputs_get_string o field) with
    | some s => .ok s
    | none => .error (.expression ("Job output not found: " ++ job_name ++ "." ++ field))
  | ["matrix", key] =>
    match mapGet ctx.matrix key with
    | some v => .ok (value_to_string v)
    | none => .error (.expression ("Matrix key not found: " ++ key))
  | ["jobs", job_name, "outputs", field] =>
    match (mapGet ctx.jobs job_name).bind (fun o => jobOutputs_get_string o field) with
    | some s => .ok s
    | none => .error (.expression ("Job output not found: " ++ job_name ++ "." ++ field))
  | _ => .error (.expression ("Unknown expression: " ++ expr))

/-- Model of `evaluate_expr` from `expr.rs`. -/
def evaluate_expr (expr : String) (ctx : ExprContext) : Except Error String :=
  evalStrParts ctx expr (splitDots expr)

/-- Scanning loop of `find_operator` from `expr.rs`.  `i` is the current
position, `depth` the brace/bracket depth, `inStr`/`sc` the
inside-string-literal state, `prev` the previous character (for the
backslash-escape check `chars[i-1] != backslash`).  The operator test
happens after the depth update for the current character, exactly as in
the source. -/
def findOpGo (op : List Char) : List Char → Nat → Int → Bool → Char → Option Char → Option Nat
  | [], _, _, _, _, _ => none
  | c :: rest, i, depth, inStr, sc, prev =>
    if inStr then
      if c == sc && (prev.map (fun p => p != backslashChar)).getD true then
        findOpGo op rest (i + 1) depth false sc (some c)
      else
        findOpGo op rest (i + 1) depth true sc (some c)
    else if c = dquoteChar ∨ c = squoteChar then
      findOpGo op rest (i + 1) depth true c (some c)
    else
      let depth' :=
        if c = lbrace ∨ c = '[' then depth + 1
        else if c = rbrace ∨ c = ']' then depth - 1
        else depth
      if depth' = 0 ∧ op.isPrefixOf (c :: rest) then some i
      else findOpGo op rest (i + 1) depth' false sc (some c)

/-- Model of `find_operator` from `expr.rs`: position of the first
occurrence of `op` at brace depth 0 and outside string literals. -/
def find_operator (expr : String) (op : String) : Option Nat :=
  findOpGo op.data expr.data 0 0 false ' ' none

/-- Model of `compare_values` from `expr.rs`.  The four numeric operators
coerce both sides to `f64` via `value_to_f64` and compare; that floating
point path is represented by the oracle's `cmpNum` (absence means at
least one side was not numeric, making the comparison `false`). -/
def compare_values (ext : ExtOracle) (left right : Value) (op : String) : Bool :=
  if op = "==" then beqV left right
  else if op = "!=" then !beqV left right
  else if op = "contains" then value_contains left right
  else if op = ">" then ext.cmpNum left right == some .gt
  else if op = "<" then ext.cmpNum left right == some .lt
  else if op = ">=" then ext.cmpNum left right == some .gt || ext.cmpNum left right == some .eq
  else if op = "<=" then ext.cmpNum left right == some .lt || ext.cmpNum left right == some .eq
  else false

/-- Model of `evaluate_operand` from `expr.rs`: JSON literals go to the
external parser, quoted strings are stripped of their delimiters,
`true`/`false`/`null` and integer literals are recognised, `f64` literals
go to the float oracle, and everything else is a context path. -/
def evaluate_operand (ext : ExtOracle) (operand : String) (ctx : ExprContext) : Except Error Value :=
  let t := strTrim operand
  if strStartsWith t (String.mk [lbrace]) || strStartsWith t ("[") then
    match ext.parseJson t with
    | .ok v => .ok v
    | .error e => .error (.expression ("Invalid JSON: " ++ e))
  else if strStartsWith t (String.mk [dquoteChar]) then
    .ok (.str (String.mk ((t.data.drop 1).dropLast)))
  else if strStartsWith t (String.mk [squoteChar]) then
    .ok (.str (String.mk ((t.data.drop 1).dropLast)))
  else if t = "true" then .ok (.bool true)
  else if t = "false" then .ok (.bool false)
  else if t = "null" then .ok .null
  else
    match parseI64 t with
    | some num => .ok (.num num)
    | none =>
      match ext.parseF64 t with
      | some v => .ok v
      | none => evaluate_expr_value t ctx

/-- Operator table of `evaluate_bool_expr`, in scan order. -/
def boolOps : List String :=
  [" contains ", "==", "!=", ">=", "<=", ">", "<"]

/-- Operator loop of `evaluate_bool_expr` from `expr.rs`: the first
operator found at depth 0 splits the expression into two operands. -/
def evalBoolOps (ext : ExtOracle) (expr : String) (ctx : ExprContext) : List String → Except Error Bool
  | [] => .error (.expression ("No comparison operator found in expression: " ++ expr))
  | op :: rest =>
    match find_operator expr op with
    | some pos =>
      let left := strTrim (String.mk (expr.data.take pos))
      let right := strTrim (String.mk (expr.data.drop (pos + op.length)))
      match evaluate_operand ext left ctx with
      | .error e => .error e
      | .ok left_val =>
        match evaluate_operand ext right ctx with
        | .error e => .error e
        | .ok right_val => .ok (compare_values ext left_val right_val (strTrim op))
    | none => evalBoolOps ext expr ctx rest

/-- Model of `evaluate_bool_expr` from `expr.rs`. -/
def evaluate_bool_expr (ext : ExtOracle) (expr : String) (ctx : ExprContext) : Except Error Bool :=
  evalBoolOps ext expr ctx boolOps

/-- Whitespace class of the regex `\s`. -/
def isWsChar (c : Char) : Bool :=
  c == ' ' || c == Char.ofNat 9 || c == Char.ofNat 10 || c == Char.ofNat 11 ||
    c == Char.ofNat 12 || c == Char.ofNat 13

/-- After the capture content, the regex tail `\s*\}\}` can only complete
by consuming the maximal whitespace run followed by two closing braces
(a closing brace is never whitespace, so no backtracking arises).
Returns the number of characters consumed. -/
def closeCheck (t : List Char) : Option Nat :=
  let w := (t.takeWhile isWsChar).length
  match t.drop w with
  | c :: c' :: _ => if c = rbrace ∧ c' = rbrace then some (w + 2) else none
  | _ => none

/-- Lazy scan for the capture group `(.+?)` of the interpolation regex
`\$\{\{\s*(.+?)\s*\}\}`: at each position, first try to close the match
(the group must be non-empty), otherwise extend the group by one
non-newline character.  Returns the captured content and the number of
characters consumed starting from the content (content plus closer). -/
def contentScan (acc : List Char) : List Char → Option (List Char × Nat)
  | [] => none
  | c :: rest =>
    match (if acc.isEmpty then none else closeCheck (c :: rest)) with
    | some n => some (acc.reverse, acc.length + n)
    | none =>
      if c = Char.ofNat 10 then none
      else contentScan (c :: acc) (c :: rest).tail

/-- Attempt the regex body with exactly `a` characters consumed by the
leading greedy `\s*`.  Returns capture content and total characters
consumed after the opening `${{`. -/
def tryWithA (a : Nat) (u : List Char) : Option (List Char × Nat) :=
  match contentScan [] (u.drop a) with
  | some (inner, m) => some (inner, a + m)
  | none => none

/-- Greedy preference for the leading `\s*`: try the longest whitespace
prefix first and back off one character at a time. -/
def tryADesc : Nat → List Char → Option (List Char × Nat)
  | 0, u => tryWithA 0 u
  | a + 1, u =>
    match tryWithA (a + 1) u with
    | some r => some r
    | none => tryADesc a u

/-- Try to complete an interpolation match directly after an opening
`${{`; `u` is the remaining text. -/
def tryOpen (u : List Char) : Option (List Char × Nat) :=
  tryADesc ((u.takeWhile isWsChar).length) u

/-- Left-to-right collection of all non-overlapping matches of the
interpolation regex (what `captures_iter` yields): each element is
(full match text, capture group text).  The fuel is the input length;
every step consumes at least one character. -/
def findMatchesGo : Nat → List Char → List (List Char × List Char)
  | 0, _ => []
  | _, [] => []
  | fuel + 1, c :: rest =>
    if c = '$' ∧ rest.take 2 = [lbrace, lbrace] then
      match tryOpen (rest.drop 2) with
      | some (inner, n) =>
        let full := c :: rest.take (2 + n)
        (full, inner) :: findMatchesGo fuel (rest.drop (2 + n))
      | none => findMatchesGo fuel rest
    else findMatchesGo fuel rest

/-- All matches of `\$\{\{\s*(.+?)\s*\}\}` in `s` with their captures. -/
def findMatches (s : List Char) : List (List Char × List Char) :=
  findMatchesGo s.length s

/-- Replacement loop of Rust `str::replace`: every occurrence of the
pattern is replaced.  The fuel is the input length (each step consumes
at least one character for a non-empty pattern), making the function
structural. -/
def replaceGo (pat rep : List Char) : Nat → List Char → List Char
  | _, [] => []
  | 0, s => s
  | fuel + 1, c :: rest =>
    if pat.isPrefixOf (c :: rest) then
      rep ++ replaceGo pat rep fuel ((c :: rest).drop pat.length)
    else c :: replaceGo pat rep fuel rest

/-- Model of `str::replace` (the source only ever replaces the non-empty
full match text, so the empty-pattern behaviour is irrelevant and the
input is returned unchanged there). -/
def replaceAll (s pat rep : List Char) : List Char :=
  match pat with
  | [] => s
  | _ :: _ => replaceGo pat rep s.length s

/-- Interpolation loop of `evaluate` from `expr.rs`: for every regex
match of the original input, evaluate the captured path expression and
substitute its value for the full match text in the running result. -/
def evaluateGo (ctx : ExprContext) : List (List Char × List Char) → List Char → Except Error (List Char)
  | [], result => .ok result
  | (full, inner) :: ms, result =>
    match evaluate_expr (String.mk inner) ctx with
    | .error e => .error e
    | .ok value => evaluateGo ctx ms (replaceAll result full value.data)

/-- Model of `evaluate` from `expr.rs`: substitute every `${{ … }}`
occurrence in the input by the evaluated path expression. -/
def evaluate (input : String) (ctx : ExprContext) : Except Error String :=
  match evaluateGo ctx (findMatches input.data) input.data with
  | .ok result => .ok (String.mk result)
  | .error e => .error e

mutual
/-- Model of `evaluate_value` from `expr.rs`: recursive walk substituting
inside string leaves. -/
def evaluate_value (v : Value) (ctx : ExprContext) : Except Error Value :=
  match v with
  | .str s =>
    match evaluate s ctx with
    | .ok evaluated => .ok (.str evaluated)
    | .error e => .error e
  | .obj map =>
    match evalValueObj map ctx with
    | .ok new_map => .ok (.obj new_map)
    | .error e => .error e
  | .arr a =>
    match evalValueArr a ctx with
    | .ok new_arr => .ok (.arr new_arr)
    | .error e => .error e
  | other => .ok other
termination_by sizeOf v

/-- Object walk of `evaluate_value`. -/
def evalValueObj (map : List (String × Value)) (ctx : ExprContext) : Except Error (List (String × Value)) :=
  match map with
  | [] => .ok []
  | (k, v) :: t =>
    match evaluate_value v ctx with
    | .error e => .error e
    | .ok v' =>
      match evalValueObj t ctx with
      | .error e => .error e
      | .ok t' => .ok ((k, v') :: t')
termination_by sizeOf map

/-- Array walk of `evaluate_value`. -/
def evalValueArr (a : List Value) (ctx : ExprContext) : Except Error (List Value) :=
  match a with
  | [] => .ok []
  | v :: t =>
    match evaluate_value v ctx with
    | .error e => .error e
    | .ok v' =>
      match evalValueArr t ctx with
      | .error e => .error e
      | .ok t' => .ok (v' :: t')
termination_by sizeOf a
end

/-- Model of `evaluate_assertion` from `expr.rs`: the first `${{ … }}`
capture of the assertion string is evaluated as a boolean expression;
a string without a match is an invalid assertion. -/
def evaluate_assertion (ext : ExtOracle) (assertion : String) (ctx : ExprContext) : Except Error Bool :=
  match findMatches assertion.data with
  | (_, inner) :: _ => evaluate_bool_expr ext (String.mk inner) ctx
  | [] => .error (.expression ("Invalid assertion format: " ++ assertion))

/-- Model of `JobNeeds` from `parser.rs`. -/
inductive JobNeeds where
  | none : JobNeeds
  | single : String → JobNeeds
  | multiple : List String → JobNeeds
deriving DecidableEq, Inhabited

/-- Model of `JobNeeds::as_vec`. -/
def JobNeeds.as_vec : JobNeeds → List String
  | .none => []
  | .single s => [s]
  | .multiple v => v

/-- Model of `Matrix` from `parser.rs`: `dimensions` holds every YAML key
other than `include`/`exclude` (those two are embedded as `includeL` and
`excludeL` because `include` is reserved in Lean). -/
structure Matrix where
  includeL : List (List (String × Value))
  excludeL : List (List (String × Value))
  dimensions : List (String × List Value)
deriving Inhabited

/-- Model of `Strategy` from `parser.rs`. -/
structure Strategy where
  matrix : Matrix
  fail_fast : Bool
  max_parallel : Option Nat
deriving Inhabited

/-- Model of `Step` from `parser.rs` (`with` is reserved in Lean and is
embedded as `with_`). -/
structure Step where
  name : Option String
  id : Option String
  uses : String
  with_ : List (String × Value)
  continue_on_error : Bool
  pre_assert : List String
  post_assert : List String
deriving Inhabited

/-- Model of `Job` from `parser.rs`. -/
structure Job where
  name : Option String
  needs : JobNeeds
  uses : Option String
  with_ : List (String × Value)
  strategy : Option Strategy
  outputs : List (String × String)
  env : List (String × String)
  steps : List Step
deriving Inhabited

/-- Model of `OutputDef` from `parser.rs`. -/
structure OutputDef where
  description : Option String
  value : String
deriving DecidableEq, Inhabited

/-- Model of `InputDef` from `parser.rs`. -/
structure InputDef where
  description : Option String
  required : Bool
  default : Option Value
  input_type : Option String
deriving Inhabited

/-- Model of `WorkflowCallConfig` from `parser.rs`. -/
structure WorkflowCallConfig where
  inputs : List (String × InputDef)
  outputs : List (String × OutputDef)
deriving Inhabited

/-- Model of `WorkflowTrigger` from `parser.rs`. -/
structure WorkflowTrigger where
  workflow_call : Option WorkflowCallConfig
deriving Inhabited

/-- Model of `Workflow` from `parser.rs`.  The `on` trigger field is
embedded as `on_` (`on` is reserved in Lean); the `jobs` map is embedded
as an association list in the map's iteration order (job keys are
unique). -/
structure Workflow where
  name : String
  on_ : Option WorkflowTrigger
  env : List (String × String)
  jobs : List (String × Job)
deriving Inhabited

/-- Model of `Workflow::is_reusable`. -/
def Workflow.is_reusable (w : Workflow) : Bool :=
  match w.on_ with
  | some t => t.workflow_call.isSome
  | none => false

/-- The `@file:` prefix constant from `workflow_registry.rs`. -/
def FILE_REF_PREFIX : String := "@file:"

/-- Model of `is_file_ref` from `workflow_registry.rs`. -/
def is_file_ref (uses : String) : Bool :=
  strStartsWith uses FILE_REF_PREFIX

/-- Model of `parse_file_ref` from `workflow_registry.rs`. -/
def parse_file_ref (uses : String) : Except Error String :=
  if !strStartsWith uses FILE_REF_PREFIX then .error (.invalidFileRef uses)
  else .ok (strDrop uses FILE_REF_PREFIX.length)

/-- Matrix combination (`MatrixCombination` = `HashMap<String, Value>`). -/
abbrev MatrixCombination := List (String × Value)

/-- Model of `values_equal` from `matrix.rs` (numbers compare via
`as_f64`, which on the integer embedding is exact equality). -/
def values_equal (a b : Value) : Bool :=
  match a, b with
  | .str a, .str b => a == b
  | .num a, .num b => a == b
  | .bool a, .bool b => a == b
  | .null, .null => true
  | a, b => beqV a b

/-- Model of `matches_exclude` from `matrix.rs`: every key of the exclude
entry must be present in the combination with an equal value. -/
def matches_exclude (combo : MatrixCombination) (exclude : List (String × Value)) : Bool :=
  exclude.all (fun kv =>
    match mapGet combo kv.1 with
    | some v => values_equal v kv.2
    | none => false)

/-- Model of `matches_any_exclude` from `matrix.rs`. -/
def matches_any_exclude (combo : MatrixCombination) (excludes : List (List (String × Value))) : Bool :=
  excludes.any (fun exclude => matches_exclude combo exclude)

/-- Model of `cartesian_product` from `matrix.rs`: an empty dimensions
map yields no combinations at all; otherwise the running result is
extended one dimension at a time. -/
def cartesian_product (matrix : List (String × List Value)) : List MatrixCombination :=
  if matrix.isEmpty then []
  else
    matrix.foldl
      (fun result kv =>
        result.flatMap (fun combo => kv.2.map (fun value => insertKV kv.1 value combo)))
      [[]]

/-- Model of `expand_matrix_inner` from `matrix.rs`. -/
def expand_matrix_inner (matrix : Matrix) : List MatrixCombination :=
  if matrix.dimensions.isEmpty && matrix.includeL.isEmpty then [[]]
  else
    let combinations := cartesian_product matrix.dimensions
    let combinations := combinations.filter (fun combo => !matches_any_exclude combo matrix.excludeL)
    let combinations :=
      combinations ++ matrix.includeL.map (fun inc => inc.foldl (fun m kv => insertKV kv.1 kv.2 m) [])
    if combinations.isEmpty then [[]] else combinations

/-- Model of `expand_matrix` from `matrix.rs`. -/
def expand_matrix (strategy : Strategy) : List MatrixCombination :=
  expand_matrix_inner strategy.matrix

/-- Model of `StepResult` from `runner.rs`.  The `Duration` payloads are
wall-clock measurements and are dropped from the embedding. -/
inductive StepResult where
  | passed : StepResult
  | failed : String → StepResult
  | skipped : StepResult
deriving DecidableEq, Inhabited

/-- Model of `StepResult::is_passed`. -/
def StepResult.is_passed : StepResult → Bool
  | .passed => true
  | _ => false

/-- Model of `StepResult::is_failed`. -/
def StepResult.is_failed : StepResult → Bool
  | .failed _ => true
  | _ => false

/-- Model of `JobResult` from `runner.rs` (duration dropped). -/
structure JobResult where
  name : String
  matrix_suffix : String
  steps : List (String × StepResult)
  outputs : OutMap
deriving Inhabited

/-- Model of `JobResult::passed`: all recorded step results are `Passed`
(note this is vacuously true for an empty step list). -/
def JobResult.passed (r : JobResult) : Bool :=
  r.steps.all (fun p => p.2.is_passed)

/-- Model of `JobResult::steps_passed`. -/
def JobResult.steps_passed (r : JobResult) : Nat :=
  (r.steps.filter (fun p => p.2.is_passed)).length

/-- Model of `JobResult::steps_failed`. -/
def JobResult.steps_failed (r : JobResult) : Nat :=
  (r.steps.filter (fun p => p.2.is_failed)).length

/-- Model of `WorkflowResult` from `runner.rs` (duration dropped). -/
structure WorkflowResult where
  name : String
  jobs : List JobResult
deriving Inhabited

/-- Model of `WorkflowResult::passed`. -/
def WorkflowResult.passed (r : WorkflowResult) : Bool :=
  r.jobs.all (fun j => j.passed)

/-- Model of `WorkflowResult::jobs_passed`. -/
def WorkflowResult.jobs_passed (r : WorkflowResult) : Nat :=
  (r.jobs.filter (fun j => j.passed)).length

/-- Model of `WorkflowResult::jobs_failed`. -/
def WorkflowResult.jobs_failed (r : WorkflowResult) : Nat :=
  (r.jobs.filter (fun j => !j.passed)).length

/-- The `JobResult` constructed by `run_job` when the world factory
fails (`runner.rs` lines 415–433): the job is logged with a red cross
but recorded with zero steps and empty outputs. -/
def worldInitFailedJobResult (job_name matrix_suffix : String) : JobResult :=
  { name := job_name, matrix_suffix := matrix_suffix, steps := [], outputs := [] }

/-- Type-erased step callables and the registry, as visible to
`run_step`.  A callable takes the (exclusively owned) world and the
evaluated argument map and produces either step outputs or an error
message (`e.to_string()` of the callable's error); the world may be
mutated.  The bodies are user code and therefore parameters of the
model. -/
structure StepEngine (σ : Type) where
  ext : ExtOracle
  registry : String → Option (σ → List (String × Value) → σ × Except String OutMap)

/-- Instrumentation events recording which external calls the engine
makes while running a job's steps; `i` is the position of the step in
the job's step list.  `dispatch` marks the invocation of a step body,
`beforeStep`/`afterStep` the corresponding hooks. -/
inductive Ev where
  | beforeStep : Nat → Ev
  | afterStep : Nat → Ev
  | dispatch : Nat → Ev
deriving DecidableEq, Inhabited

/-- Pre-assertion loop of `run_step`: the first false or erroring
assertion fails the step. -/
def preAssertLoop (ext : ExtOracle) (ctx : ExprContext) : List String → Option StepResult
  | [] => none
  | assertion :: rest =>
    match evaluate_assertion ext assertion ctx with
    | .ok true => preAssertLoop ext ctx rest
    | .ok false => some (.failed ("Pre-assertion failed: " ++ assertion))
    | .error e => some (.failed ("Pre-assertion error: " ++ e.toMessage))

/-- Post-assertion loop of `run_step` (same shape, different messages). -/
def postAssertLoop (ext : ExtOracle) (ctx : ExprContext) : List String → Option StepResult
  | [] => none
  | assertion :: rest =>
    match evaluate_assertion ext assertion ctx with
    | .ok true => postAssertLoop ext ctx rest
    | .ok false => some (.failed ("Post-assertion failed: " ++ assertion))
    | .error e => some (.failed ("Post-assertion error: " ++ e.toMessage))

/-- Argument evaluation of `run_step`: every `with` value runs through
`evaluate_value`; the first error aborts. -/
def evalArgs (ext : ExtOracle) (ctx : ExprContext) : List (String × Value) → Except Error (List (String × Value))
  | [] => .ok []
  | (k, v) :: t =>
    match evaluate_value v ctx with
    | .error e => .error e
    | .ok ev =>
      match evalArgs ext ctx t with
      | .error e => .error e
      | .ok t' => .ok ((k, ev) :: t')

/-- Model of `run_step` from `runner.rs`.  `i` is the instrumentation
index of the step within its job; the returned event list records
whether the step body was dispatched.  The step's outputs are inserted
under `ctx.steps[id]` *before* the post-assertions run, and the post
assertions are evaluated in that updated context augmented with
`outputs`; a failing post-assertion returns `Failed` but keeps the
updated context. -/
def run_step {σ : Type} (E : StepEngine σ) (i : Nat) (step : Step) (world : σ)
    (ctx : ExprContext) : StepResult × σ × ExprContext × List Ev :=
  match preAssertLoop E.ext ctx step.pre_assert with
  | some r => (r, world, ctx, [])
  | none =>
    match E.registry step.uses with
    | none => (.failed ("Step not found: " ++ step.uses), world, ctx, [])
    | some step_fn =>
      match evalArgs E.ext ctx step.with_ with
      | .error e => (.failed ("Args evaluation failed: " ++ e.toMessage), world, ctx, [])
      | .ok evaluated_args =>
        let (world', res) := step_fn world evaluated_args
        match res with
        | .error e => (.failed e, world', ctx, [.dispatch i])
        | .ok outputs =>
          let ctx' :=
            match step.id with
            | some id => { ctx with steps := insertKV id outputs ctx.steps }
            | none => ctx
          if step.post_assert.isEmpty then (.passed, world', ctx', [.dispatch i])
          else
            match postAssertLoop E.ext (ctx'.with_outputs outputs) step.post_assert with
            | some r => (r, world', ctx', [.dispatch i])
            | none => (.passed, world', ctx', [.dispatch i])

/-- Display name of a step in the results (`step.name` or `step.uses`). -/
def stepDisplayName (step : Step) : String :=
  step.name.getD step.uses

/-- The step loop of `run_job` (`runner.rs` lines 448–470) over the
job's steps paired with their positions.  `should_skip` is the running
skip flag: once a step fails without `continue_on_error`, every later
step is recorded `Skipped` and neither hooks nor `run_step` run for it.
Hook bodies are user code; their world effects are modelled by the
`before_step`/`after_step` parameters and their invocations recorded as
events. -/
def runJobStepsGo {σ : Type} (E : StepEngine σ) (before_step after_step : σ → σ) :
    List (Nat × Step) → σ → ExprContext → Bool →
    List (String × StepResult) × List Ev × σ × ExprContext
  | [], world, ctx, _ => ([], [], world, ctx)
  | (i, step) :: rest, world, ctx, should_skip =>
    if should_skip then
      let (results, evs, world', ctx') := runJobStepsGo E before_step after_step rest world ctx should_skip
      ((stepDisplayName step, .skipped) :: results, evs, world', ctx')
    else
      let world1 := before_step world
      let (result, world2, ctx2, stepEvs) := run_step E i step world1 ctx
      let world3 := after_step world2
      let skip' := result.is_failed && !step.continue_on_error
      let (results, evs, world', ctx') := runJobStepsGo E before_step after_step rest world3 ctx2 skip'
      ((stepDisplayName step, result) :: results,
        .beforeStep i :: stepEvs ++ (Ev.afterStep i :: evs), world', ctx')

/-- Steps of a job paired with their positions starting at `k`
(instrumentation only; the source iterates `&job.steps` directly). -/
def enumFrom (k : Nat) : List Step → List (Nat × Step)
  | [] => []
  | s :: t => (k, s) :: enumFrom (k + 1) t

/-- Steps of a job paired with their positions. -/
def enumSteps (steps : List Step) : List (Nat × Step) :=
  enumFrom 0 steps

/-- The step loop of `run_job`, started with an empty skip flag. -/
def runJobSteps {σ : Type} (E : StepEngine σ) (before_step after_step : σ → σ)
    (steps : List Step) (world : σ) (ctx : ExprContext) :
    List (String × StepResult) × List Ev × σ × ExprContext :=
  runJobStepsGo E before_step after_step (enumSteps steps) world ctx false

/-- The `needs` seeding of `run_job` (`runner.rs` lines 442–446): the
fresh context's `needs` map receives the recorded outputs of every
declared dependency that has already produced outputs. -/
def seedNeeds (needs : List String) (parent_outputs : List (String × OutMap)) :
    List (String × OutMap) :=
  needs.foldl
    (fun acc need =>
      match mapGet parent_outputs need with
      | some outputs => insertKV need outputs acc
      | none => acc)
    []

/-- The job-output evaluation of `run_job` (`runner.rs` lines 510–515):
each declared output expression is evaluated in the job's final context;
an evaluation error drops the entry silently. -/
def evalJobOutputs (outputs : List (String × String)) (ctx : ExprContext) : OutMap :=
  outputs.foldl
    (fun acc kv =>
      match evaluate_value (.str kv.2) ctx with
      | .ok value => insertKV kv.1 value acc
      | .error _ => acc)
    []

/-- The jobs map handed to `toposort_jobs`: the `HashMap<String, Job>`
is embedded as an association list in the map's iteration order. -/
abbrev JobsMap := List (String × Job)

/-- Dependency list of a job as `visit` reads it (`jobs.get(name)`
followed by `needs.as_vec()`; an absent job contributes no edges). -/
def needsOf (jobs : JobsMap) (name : String) : List String :=
  match List.lookup name jobs with
  | some job => job.needs.as_vec
  | none => []

/-- The mutable state of `toposort_jobs`: the output order, the set of
permanently visited nodes and the set of temporarily visited nodes
(the current DFS stack). -/
structure TopoState where
  result : List String
  visited : List String
  temp : List String
deriving Inhabited

/-- Dependency loop inside `visit`: each dependency is checked for
existence and then visited; errors propagate.  The recursive visit
function is passed in as `v` (it is `visit` at one fuel level down). -/
def visitDeps (v : String → TopoState → List String → Except Error TopoState)
    (jobs : JobsMap) (name : String) :
    List String → TopoState → List String → Except Error TopoState
  | [], st, _ => .ok st
  | dep :: rest, st, path =>
    if (List.lookup dep jobs).isNone then
      .error (.jobDependencyNotFound name dep)
    else
      match v dep st path with
      | .error e => .error e
      | .ok st' => visitDeps v jobs name rest st' path

/-- Model of the recursive `visit` of `toposort_jobs` (`runner.rs`
lines 619–659).  The source recursion is unbounded; the embedding uses
fuel, and the correctness theorem shows `jobs.length + 1` fuel never
runs out.  On the cycle check the node is appended to the path exactly
as `path.push(name)` does before the error is built. -/
def visit (jobs : JobsMap) : Nat → String → TopoState → List String → Except Error TopoState
  | 0, _, _, _ => .error .fuelExhausted
  | fuel + 1, name, st, path =>
    if name ∈ st.temp then
      .error (.circularDependency (String.intercalate (" -> ") (path ++ [name])))
    else if name ∈ st.visited then .ok st
    else
      match visitDeps (visit jobs fuel) jobs name (needsOf jobs name)
          { st with temp := name :: st.temp } (path ++ [name]) with
      | .error e => .error e
      | .ok st2 =>
        .ok { result := st2.result ++ [name],
              visited := name :: st2.visited,
              temp := st2.temp.filter (fun x => x != name) }

/-- Outer loop of `toposort_jobs`: every job key is visited with a fresh
path. -/
def toposortGo (jobs : JobsMap) : List String → TopoState → Except Error TopoState
  | [], st => .ok st
  | name :: rest, st =>
    match visit jobs (jobs.length + 1) name st [] with
    | .error e => .error e
    | .ok st' => toposortGo jobs rest st'

/-- Model of `toposort_jobs` from `runner.rs`: DFS-based topological
sort over the job keys in map iteration order. -/
def toposort_jobs (jobs : JobsMap) : Except Error (List String) :=
  match toposortGo jobs (jobs.map Prod.fst) ⟨[], [], []⟩ with
  | .ok st => .ok st.result
  | .error e => .error e

/-- Model of `ValidationError` from `validate.rs` (workflow paths as
strings). -/
inductive ValidationError where
  | jobDependencyNotFound (workflow job dependency : String)
  | fileReferenceNotFound (workflow job file_ref : String)
  | invalidFileReference (workflow job uses : String)
  | circularJobDependency (workflow : String) (chain : List String)
  | duplicateStepId (workflow job step_id : String)
  | invalidOutputExpression (workflow job output_name expression reason : String)
  | reusableWorkflowMissingOutputs (workflow job file_ref : String)
deriving DecidableEq, Inhabited

/-- Model of `ValidationWarning` from `validate.rs`. -/
inductive ValidationWarning where
  | emptyWorkflow (workflow : String)
  | jobWithNoSteps (workflow job : String)
  | unusedReusableWorkflow (workflow : String)
  | stepWithoutId (workflow job : String) (step_index : Nat) (step_uses : String)
deriving DecidableEq, Inhabited

/-- Model of `ValidationReport` from `validate.rs`. -/
structure ValidationReport where
  errors : List ValidationError
  warnings : List ValidationWarning
deriving Inhabited

/-- Model of `ValidationReport::add_error` (`Vec::push`). -/
def ValidationReport.add_error (r : ValidationReport) (e : ValidationError) : ValidationReport :=
  { r with errors := r.errors ++ [e] }

/-- Workflow-registry lookup as `validate_job_uses` uses it
(`registry.get_by_str`). -/
abbrev RegistryLookup := String → Option Workflow

/-- Model of `validate_job_uses` from `validate.rs` (lines 290–332).
The function receives and returns the running report together with the
`referenced_reusables` set (embedded as a list).  Note the conditional
near the end of the source: it computes `has_outputs` and tests
`!has_outputs && !reusable.is_reusable()` — with an *empty body*, so no
error is ever recorded on that path. -/
def validate_job_uses (workflow_path job_name uses : String) (registry : RegistryLookup)
    (report : ValidationReport) (referenced_reusables : List String) :
    ValidationReport × List String :=
  if is_file_ref uses then
    match parse_file_ref uses with
    | .ok file_path =>
      if (registry file_path).isNone then
        (report.add_error (.fileReferenceNotFound workflow_path job_name file_path),
          referenced_reusables)
      else
        let referenced_reusables := file_path :: referenced_reusables
        match registry file_path with
        | some reusable =>
          let has_outputs :=
            match reusable.on_ with
            | some t =>
              match t.workflow_call with
              | some wc => !wc.outputs.isEmpty
              | none => false
            | none => false
          if !has_outputs && !reusable.is_reusable then
            (report, referenced_reusables)
          else
            (report, referenced_reusables)
        | none => (report, referenced_reusables)
    | .error _ =>
      (report.add_error (.invalidFileReference workflow_path job_name uses),
        referenced_reusables)
  else (report, referenced_reusables)

/-- A trivial external oracle (JSON parsing always fails, no float
literals, no numeric ordering); used to instantiate oracle-generic
theorems on concrete witnesses whose expressions avoid those paths. -/
def trivOracle : ExtOracle :=
  { parseJson := fun _ => .error "",
    parseF64 := fun _ => none,
    cmpNum := fun _ _ => none }

/-- A job with all-default fields (used by concrete witnesses). -/
def defJob : Job :=
  { name := none, needs := .none, uses := none, with_ := [], strategy := none,
    outputs := [], env := [], steps := [] }

/-- A step with all-default optional fields (used by concrete
witnesses). -/
def defStep (uses : String) : Step :=
  { name := none, id := none, uses := uses, with_ := [], continue_on_error := false,
    pre_assert := [], post_assert := [] }

/-- Product of the dimension list lengths of a matrix (the `Π |dim_i|`
of the spec's matrix-size formula). -/
def dimLenProd (M : Matrix) : Nat :=
  (M.dimensions.map (fun d => d.2.length)).prod

/-- Number of cartesian-product combinations that match at least one
exclude entry of `M` (the subtracted term of the spec's formula). -/
def excludedCount (M : Matrix) : Nat :=
  ((cartesian_product M.dimensions).filter (fun c => matches_any_exclude c M.excludeL)).length

/-- The matrix-size formula as the code realises it: an empty dimensions
map contributes zero cartesian combinations (not the single empty one),
then the exclusions are subtracted and the include entries added. -/
def expandSizeFormula (M : Matrix) : Nat :=
  (if M.dimensions.isEmpty then 0 else dimLenProd M - excludedCount M) + M.includeL.length

/-- The context used by the C5 counterexample: step `s` recorded outputs
whose field `f` holds a nested object, and dependency `A` recorded the
same map. -/
def c5ctx : ExprContext :=
  { ExprContext.new with
    steps := [("s", [("f", .obj [("g", .str "v")])])],
    needs := [("A", [("f", .obj [("g", .str "v")])])] }

/-- The matrix used by the C6 counterexample: no dimensions, one include
entry, no excludes. -/
def c6Matrix : Matrix :=
  { includeL := [[("a", .str "v")]], excludeL := [], dimensions := [] }

/-- Step engine used by the C3 witness: a step body that fails and one
that succeeds. -/
def c3Engine : StepEngine Unit :=
  { ext := trivOracle,
    registry := fun name =>
      if name = "fail" then some (fun w _ => (w, Except.error "boom"))
      else if name = "ok" then some (fun w _ => (w, Except.ok []))
      else none }

/-- A failing step without `continue-on-error` (C3 witness). -/
def c3FailStop : Step := defStep "fail"

/-- A failing step with `continue-on-error` (C3 witness). -/
def c3FailCont : Step := { defStep "fail" with continue_on_error := true }

/-- A succeeding step (C3 witness). -/
def c3OkStep : Step := defStep "ok"

/-- Step engine used by the C10 witness: a step producing `{k: "val"}`. -/
def c10Engine : StepEngine Unit :=
  { ext := trivOracle,
    registry := fun name =>
      if name = "produce" then some (fun w _ => (w, Except.ok [("k", Value.str "val")]))
      else none }

/-- Step with id `sid` whose post-assertion errors (references a missing
output), used by the C10 witness. -/
def c10Step : Step :=
  { name := none, id := some "sid", uses := "produce", with_ := [],
    continue_on_error := true, pre_assert := [],
    post_assert := ["$\x7b\x7b outputs.missing == 1 \x7d\x7d"] }

/-- Reachability along `needs` edges (one or more steps): `Reaches jobs
a b` holds when job `a` transitively depends on `b`. -/
inductive Reaches (jobs : JobsMap) : String → String → Prop where
  | step {a b : String} : b ∈ needsOf jobs a → Reaches jobs a b
  | trans {a b c : String} : b ∈ needsOf jobs a → Reaches jobs b c → Reaches jobs a c

/-- The jobs graph is acyclic: no job transitively depends on itself. -/
def Acyclic (jobs : JobsMap) : Prop := ∀ a, ¬ Reaches jobs a a

/-- Every `needs` target of every job exists in the map. -/
abbrev DepsExist (jobs : JobsMap) : Prop :=
  ∀ p ∈ jobs, ∀ d ∈ p.2.needs.as_vec, (List.lookup d jobs).isSome = true

/-- Invariant of the `toposort_jobs` traversal state: the result list is
duplicate-free, coincides with the visited set, contains only existing
jobs, and is dependency-closed in order (every need of an entry appears
at an earlier position). -/
def TopoInv (jobs : JobsMap) (st : TopoState) : Prop :=
  st.result.Nodup ∧
  (∀ x, x ∈ st.visited ↔ x ∈ st.result) ∧
  (∀ x ∈ st.result, (List.lookup x jobs).isSome = true) ∧
  (∀ (i : Nat) (x : String), st.result[i]? = some x →
    ∀ n ∈ needsOf jobs x, ∃ j : Nat, j < i ∧ st.result[j]? = some n)

/-- The two-job map used by the C1 witness: `b` needs `a`. -/
def c1Jobs : JobsMap :=
  [("a", defJob), ("b", { defJob with needs := .single "a" })]

/-! Theorems.  First the generic lemmas about the embedded definitions,
then one theorem (plus witness or counterexample) per claim. -/

mutual
theorem beqV_refl : ∀ v : Value, beqV v v = true
  | .null => by simp [beqV]
  | .bool b => by simp [beqV]
  | .num n => by simp [beqV]
  | .str s => by simp [beqV]
  | .arr l => by simpa [beqV] using beqArr_refl l
  | .obj l => by simpa [beqV] using beqObj_refl l

theorem beqArr_refl : ∀ l : List Value, beqArr l l = true
  | [] => by simp [beqArr]
  | x :: xs => by simp [beqArr, beqV_refl x, beqArr_refl xs]

theorem beqObj_refl : ∀ l : List (String × Value), beqObj l l = true
  | [] => by simp [beqObj]
  | (k, v) :: xs => by simp [beqObj, beqV_refl v, beqObj_refl xs]
end

theorem boolAndSplit {a b : Bool} (h : (a && b) = true) : a = true ∧ b = true := by
  constructor <;> simp_all

theorem boolOrSplit {a b : Bool} (h : (a || b) = true) : a = true ∨ b = true := by
  cases a with
  | true => exact Or.inl rfl
  | false => exact Or.inr (by simpa using h)

theorem strContains_refl (s : String) : strContains s s = true := by
  have h := List.infix_refl s.data
  simp [strContains, h]

theorem wfArrList_mem {l : List Value} {x : Value}
    (h : wfArrList l = true) (hm : x ∈ l) : wfV x = true := by
  induction l with
  | nil => cases hm
  | cons y t ih =>
    rw [wfArrList] at h
    rcases List.mem_cons.mp hm with rfl | ht
    · exact (boolAndSplit h).1
    · exact ih (boolAndSplit h).2 ht

theorem wfObjList_mem {l : List (String × Value)} {k : String} {v : Value}
    (h : wfObjList l = true) (hm : (k, v) ∈ l) : wfV v = true := by
  induction l with
  | nil => cases hm
  | cons p t ih =>
    obtain ⟨k', v'⟩ := p
    rw [wfObjList] at h
    rcases List.mem_cons.mp hm with heq | ht
    · cases heq; exact (boolAndSplit h).1
    · exact ih (boolAndSplit h).2 ht

theorem vcReflAux :
    ∀ (N : Nat) (v : Value), sizeOf v ≤ N → wfV v = true →
      v.isStr = true ∨ v.isArr = true ∨ v.isObj = true →
      value_contains v v = true := by
  intro N
  induction N using Nat.strong_induction_on with
  | _ N IH =>
  intro v hsz hwf hshape
  match v, hshape with
  | .str s, _ => simpa [value_contains] using strContains_refl s
  | .arr l, _ =>
    have hwfl : wfArrList l = true := by simpa [wfV] using hwf
    have hElem : ∀ x ∈ l,
        (if x.isObj then value_contains x x else beqV x x) = true := by
      intro x hx
      by_cases hobj : x.isObj = true
      · have hszx : sizeOf x < sizeOf (Value.arr l) := by
          have := List.sizeOf_lt_of_mem hx
          simp only [Value.arr.sizeOf_spec]
          omega
        have hwx : wfV x = true := wfArrList_mem hwfl hx
        simp only [hobj, if_true]
        exact IH (sizeOf x) (by omega) x le_rfl hwx (Or.inr (Or.inr hobj))
      · simp only [hobj, if_false, Bool.false_eq_true]
        exact beqV_refl x
    have hAnyGen : ∀ (x : Value) (l' : List Value), x ∈ l' →
        (if x.isObj then value_contains x x else beqV x x) = true →
        vcArrAny l' x = true := by
      intro x l' hmem hP
      induction l' with
      | nil => cases hmem
      | cons hi t ih =>
        rw [vcArrAny]
        rcases List.mem_cons.mp hmem with heq | ht
        · subst heq; simp [hP]
        · simp [ih ht]
    have hAll : ∀ (n : List Value), (∀ x ∈ n, x ∈ l) → vcArrAll l n = true := by
      intro n hn
      induction n with
      | nil => simp [vcArrAll]
      | cons ni t ih =>
        rw [vcArrAll]
        have h1 := hAnyGen ni l (hn ni (by simp)) (hElem ni (hn ni (by simp)))
        have h2 := ih (fun x hx => hn x (by simp [hx]))
        simp [h1, h2]
    simpa [value_contains] using hAll l (fun x hx => hx)
  | .obj l, _ =>
    have hconj : (l.map Prod.fst).Nodup ∧ wfObjList l = true := by
      simpa [wfV] using hwf
    have hnd : (l.map Prod.fst).Nodup := hconj.1
    have hwfl : wfObjList l = true := hconj.2
    have hField : ∀ (k : String) (v₀ : Value), (k, v₀) ∈ l → vcField l k v₀ = true := by
      intro k v₀ hm
      have hBody : (if v₀.isObj || v₀.isArr then value_contains v₀ v₀ else beqV v₀ v₀) = true := by
        by_cases hsh : (v₀.isObj || v₀.isArr) = true
        · have hszv : sizeOf v₀ < sizeOf (Value.obj l) := by
            have h1 := List.sizeOf_lt_of_mem hm
            have h2 : sizeOf v₀ < sizeOf (k, v₀) := by
              simp only [Prod.mk.sizeOf_spec]; omega
            simp only [Value.obj.sizeOf_spec]
            omega
          have hwv : wfV v₀ = true := wfObjList_mem hwfl hm
          have hshape' : v₀.isStr = true ∨ v₀.isArr = true ∨ v₀.isObj = true := by
            rcases boolOrSplit hsh with h | h
            · exact Or.inr (Or.inr h)
            · exact Or.inr (Or.inl h)
          simp only [hsh, if_true]
          exact IH (sizeOf v₀) (by omega) v₀ le_rfl hwv hshape'
        · simp only [hsh, if_false, Bool.false_eq_true]
          exact beqV_refl v₀
      have hScan : ∀ (l' : List (String × Value)), (k, v₀) ∈ l' →
          (l'.map Prod.fst).Nodup → vcField l' k v₀ = true := by
        intro l' hm' hnd'
        induction l' with
        | nil => cases hm'
        | cons p t ih =>
          obtain ⟨k', hv⟩ := p
          rw [List.map_cons] at hnd'
          obtain ⟨hhead, htail⟩ := List.nodup_cons.mp hnd'
          rw [vcField]
          by_cases hk : (k' == k) = true
          · have hkk : k' = k := by simpa using hk
            subst hkk
            have hveq : hv = v₀ := by
              rcases List.mem_cons.mp hm' with heq | ht
              · cases heq; rfl
              · exfalso
                have hkmem : k' ∈ t.map Prod.fst := List.mem_map.mpr ⟨(k', v₀), ht, rfl⟩
                exact hhead hkmem
            subst hveq
            simpa [hk] using hBody
          · have hne : (k, v₀) ≠ (k', hv) := by
              intro h; cases h; simp at hk
            have ht : (k, v₀) ∈ t := by
              rcases List.mem_cons.mp hm' with h | h
              · exact absurd h hne
              · exact h
            simpa [hk] using ih ht htail
      exact hScan l hm hnd
    have hAll : ∀ (n : List (String × Value)), (∀ p ∈ n, p ∈ l) → vcObjAll l n = true := by
      intro n hn
      induction n with
      | nil => simp [vcObjAll]
      | cons p t ih =>
        obtain ⟨k, v₀⟩ := p
        rw [vcObjAll]
        have h1 := hField k v₀ (hn (k, v₀) (by simp))
        have h2 := ih (fun x hx => hn x (by simp [hx]))
        simp [h1, h2]
    simpa [value_contains] using hAll l (fun p hp => hp)

/-- C9: the `contains` comparison is reflexive: for every JSON value X
that is a string, an array, or an object (well-formed: object keys are
duplicate-free as in any `serde_json::Map`), `value_contains X X` is
true, and hence the boolean expression `X contains X` evaluates to true
through `compare_values`. -/
theorem c9_contains_reflexive (v : Value) (ext : ExtOracle)
    (hwf : wfV v = true)
    (hshape : v.isStr = true ∨ v.isArr = true ∨ v.isObj = true) :
    value_contains v v = true ∧ compare_values ext v v "contains" = true := by
  have h := vcReflAux (sizeOf v) v le_rfl hwf hshape
  refine ⟨h, ?_⟩
  unfold compare_values
  rw [if_neg (by decide), if_neg (by decide), if_pos rfl]
  exact h

/-- Witness for C9 at the concrete value
`{"a": 1, "b": ["x"]} contains {"a": 1, "b": ["x"]}`. -/
theorem c9_contains_reflexive_witness :
    wfV (Value.obj [("a", .num 1), ("b", .arr [.str "x"])]) = true ∧
    value_contains (Value.obj [("a", .num 1), ("b", .arr [.str "x"])])
      (Value.obj [("a", .num 1), ("b", .arr [.str "x"])]) = true ∧
    compare_values trivOracle (Value.obj [("a", .num 1), ("b", .arr [.str "x"])])
      (Value.obj [("a", .num 1), ("b", .arr [.str "x"])]) "contains" = true := by
  have hwf : wfV (Value.obj [("a", .num 1), ("b", .arr [.str "x"])]) = true := by
    simp [wfV, wfObjList, wfArrList]
  have h := c9_contains_reflexive (Value.obj [("a", .num 1), ("b", .arr [.str "x"])])
    trivOracle hwf (Or.inr (Or.inr rfl))
  exact ⟨hwf, h.1, h.2⟩

/-- C7: `toposort_jobs` is deterministic — it is a pure function of the
jobs map (including its iteration order), so two invocations on the same
input produce the same output order. -/
theorem c7_toposort_deterministic (jobs1 jobs2 : JobsMap) (h : jobs1 = jobs2) :
    toposort_jobs jobs1 = toposort_jobs jobs2 := by
  rw [h]

/-- Witness for C7 on a concrete two-job map. -/
theorem c7_toposort_deterministic_witness :
    toposort_jobs [("a", defJob), ("b", { defJob with needs := .single "a" })] =
      toposort_jobs [("a", defJob), ("b", { defJob with needs := .single "a" })] :=
  c7_toposort_deterministic _ _ rfl

/-- C5 (amended): recursive descent after the `outputs` field works for
`needs.<J>.outputs.<F>.<G>…` paths, but `steps.<ID>.outputs.<F>.<G>…`
paths with more than one segment after `outputs` have no match arm in
`evaluate_expr_value` and fail with an `Unknown expression` error. -/
theorem c5_steps_path_no_descent (ctx : ExprContext) (e1 e2 sid jname f g : String)
    (rest : List String) (so : OutMap) (base : Value)
    (hneeds : mapGet ctx.needs jname = some so)
    (hfield : mapGet so f = some base) :
    evalValueParts ctx e1 ("steps" :: sid :: "outputs" :: f :: g :: rest) =
      .error (.expression ("Unknown expression: " ++ e1)) ∧
    evalValueParts ctx e2 ("needs" :: jname :: "outputs" :: f :: g :: rest) =
      navigate_value base (g :: rest) := by
  constructor
  · rfl
  · have hstep : evalValueParts ctx e2 ("needs" :: jname :: "outputs" :: f :: g :: rest) =
        match (mapGet ctx.needs jname).bind (fun o => mapGet o f) with
        | some b => navigate_value b (g :: rest)
        | none => .error (.expression ("Job output not found: " ++ jname ++ "." ++ f)) := rfl
    rw [hstep, hneeds]
    simp [Option.bind, hfield]

/-- Witness for C5 (amended) at a concrete context. -/
theorem c5_steps_path_no_descent_witness :
    evalValueParts c5ctx "steps.s.outputs.f.g" ["steps", "s", "outputs", "f", "g"] =
      .error (.expression "Unknown expression: steps.s.outputs.f.g") ∧
    evalValueParts c5ctx "needs.A.outputs.f.g" ["needs", "A", "outputs", "f", "g"] =
      navigate_value (Value.obj [("g", .str "v")]) ["g"] :=
  c5_steps_path_no_descent c5ctx "steps.s.outputs.f.g" "needs.A.outputs.f.g"
    "s" "A" "f" "g" [] [("f", .obj [("g", .str "v")])] (.obj [("g", .str "v")]) rfl rfl

/-- Counterexample for C5 as stated: in `c5ctx` step `s` recorded
`{f: {g: "v"}}`, the descent value is `"v"`, yet
`evaluate_expr_value "steps.s.outputs.f.g"` returns an `Unknown
expression` error instead of that value (the `needs` analogue does
descend). -/
theorem c5_steps_path_counterexample :
    evaluate_expr_value "steps.s.outputs.f.g" c5ctx =
      .error (.expression "Unknown expression: steps.s.outputs.f.g") ∧
    navigate_value (Value.obj [("g", .str "v")]) ["g"] = .ok (.str "v") ∧
    evaluate_expr_value "steps.s.outputs.f.g" c5ctx ≠
      navigate_value (Value.obj [("g", .str "v")]) ["g"] ∧
    evaluate_expr_value "needs.A.outputs.f.g" c5ctx = .ok (.str "v") := by
  refine ⟨rfl, rfl, ?_, rfl⟩
  intro h
  have h1 : evaluate_expr_value "steps.s.outputs.f.g" c5ctx =
      .error (.expression "Unknown expression: steps.s.outputs.f.g") := rfl
  have h2 : navigate_value (Value.obj [("g", .str "v")]) ["g"] = .ok (.str "v") := rfl
  rw [h1, h2] at h
  exact Except.noConfusion h

/-- C4 (code bug): when the world factory fails, `run_job` returns a
`JobResult` with zero steps; `JobResult::passed` is vacuously true on an
empty step list, so the job does *not* count toward `jobs_failed` (and
cannot trigger the non-zero exit), contradicting the claim and the
source's own `✗ … (world init failed)` report line. -/
theorem c4_world_init_failure_counts_as_passed (job_name sfx wname : String) :
    (worldInitFailedJobResult job_name sfx).passed = true ∧
    WorkflowResult.jobs_failed { name := wname, jobs := [worldInitFailedJobResult job_name sfx] } = 0 := by
  constructor
  · rfl
  · rfl

/-- C8 (code bug): whenever a job's `uses` is a valid `@file:` reference
that resolves in the registry, `validate_job_uses` leaves the report
unchanged — in particular, for a reusable workflow whose `workflow_call`
declares no outputs, no `ReusableWorkflowMissingOutputs` error is ever
recorded (the conditional that computes `has_outputs` has an empty body,
and its guard `!reusable.is_reusable()` is false for reusable
workflows). -/
theorem c8_no_missing_outputs_error
    (workflow_path job_name uses file_path : String) (registry : RegistryLookup)
    (report : ValidationReport) (refd : List String) (wf : Workflow)
    (wc : WorkflowCallConfig)
    (hparse : parse_file_ref uses = .ok file_path)
    (hreg : registry file_path = some wf)
    (_hcall : wf.on_ = some { workflow_call := some wc })
    (_houts : wc.outputs = []) :
    validate_job_uses workflow_path job_name uses registry report refd =
      (report, file_path :: refd) := by
  have hpref : strStartsWith uses FILE_REF_PREFIX = true := by
    by_contra hn
    rw [parse_file_ref, if_pos (by simpa using hn)] at hparse
    cases hparse
  have hfile : is_file_ref uses = true := by simpa [is_file_ref] using hpref
  rw [validate_job_uses, if_pos hfile, hparse]
  simp [hreg, ite_self]

/-- Witness for C8 at a concrete registry: `main.yaml`'s job `init` uses
`@file:setup.yaml`, and `setup.yaml` is reusable with an empty
`workflow_call.outputs`; the validation report stays empty. -/
theorem c8_no_missing_outputs_error_witness :
    validate_job_uses "main.yaml" "init" "@file:setup.yaml"
      (fun p => if p = "setup.yaml" then
        some { name := "Setup", on_ := some { workflow_call := some { inputs := [], outputs := [] } },
               env := [], jobs := [] }
        else none)
      { errors := [], warnings := [] } [] =
      ({ errors := [], warnings := [] }, ["setup.yaml"]) :=
  c8_no_missing_outputs_error "main.yaml" "init" "@file:setup.yaml" "setup.yaml"
    _ _ _ _ { inputs := [], outputs := [] } rfl rfl rfl rfl

theorem cartStepLen (k : String) (vs : List Value) (acc : List MatrixCombination) :
    (acc.flatMap (fun combo => vs.map (fun value => insertKV k value combo))).length
      = acc.length * vs.length := by
  induction acc with
  | nil => simp
  | cons c t ih => simp [ih]; ring

theorem cartFoldLen (dims : List (String × List Value)) :
    ∀ acc : List MatrixCombination,
      (List.foldl
        (fun result kv =>
          result.flatMap (fun combo => kv.2.map (fun value => insertKV kv.1 value combo)))
        acc dims).length
      = acc.length * (dims.map (fun d => d.2.length)).prod := by
  induction dims with
  | nil => intro acc; simp
  | cons kv t ih =>
    intro acc
    rw [List.foldl_cons, ih, cartStepLen kv.1 kv.2 acc]
    simp [Nat.mul_assoc]

theorem cartesian_product_length (dims : List (String × List Value)) :
    (cartesian_product dims).length =
      if dims.isEmpty then 0 else (dims.map (fun d => d.2.length)).prod := by
  unfold cartesian_product
  by_cases h : dims.isEmpty
  · simp [h]
  · simp only [h, if_false, Bool.false_eq_true]
    rw [cartFoldLen dims [[]]]
    simp

theorem filterSplitLen {α : Type} (l : List α) (p : α → Bool) :
    (l.filter (fun x => !p x)).length = l.length - (l.filter p).length := by
  induction l with
  | nil => simp
  | cons x t ih =>
    have hle := List.length_filter_le p t
    by_cases hp : p x = true
    · simp only [List.filter_cons, hp, Bool.not_true, Bool.false_eq_true, if_false, if_true]
      rw [ih]
      simp only [List.length_cons]
      omega
    · have hp' : p x = false := by revert hp; cases p x <;> simp
      simp only [List.filter_cons, hp', Bool.not_false, Bool.false_eq_true, if_false, if_true]
      simp only [List.length_cons]
      rw [ih]
      omega

theorem lengthZeroIffIsEmpty {α : Type} {l : List α} : l.length = 0 ↔ l.isEmpty = true := by
  cases l <;> simp

/-- C6 (amended): the number of combinations produced by
`expand_matrix_inner` is: zero from the cartesian product when the
dimensions map is empty (not the single empty combination), otherwise
the product of the dimension lengths minus the number of cartesian
combinations matching some exclude; plus the number of include entries;
and one empty combination exactly when that total is zero. -/
theorem c6_matrix_size (M : Matrix) :
    (expand_matrix_inner M).length =
      (if expandSizeFormula M = 0 then 1 else expandSizeFormula M) ∧
    (expandSizeFormula M = 0 → expand_matrix_inner M = [[]]) := by
  have hcart := cartesian_product_length M.dimensions
  have hexcl : excludedCount M ≤ (cartesian_product M.dimensions).length :=
    List.length_filter_le _ _
  have hkept : ((cartesian_product M.dimensions).filter
      (fun combo => !matches_any_exclude combo M.excludeL)).length
      = (cartesian_product M.dimensions).length - excludedCount M :=
    filterSplitLen (cartesian_product M.dimensions) (fun c => matches_any_exclude c M.excludeL)
  by_cases hboth : (M.dimensions.isEmpty && M.includeL.isEmpty) = true
  · obtain ⟨hd, hi⟩ := boolAndSplit hboth
    have hinc : M.includeL.length = 0 := lengthZeroIffIsEmpty.mpr hi
    have hexp : expand_matrix_inner M = [[]] := by
      unfold expand_matrix_inner
      rw [if_pos hboth]
    have hform : expandSizeFormula M = 0 := by
      unfold expandSizeFormula
      rw [if_pos hd, hinc]
    rw [hexp, hform]
    exact ⟨rfl, fun _ => rfl⟩
  · have hexp : expand_matrix_inner M =
        (if ((cartesian_product M.dimensions).filter
              (fun combo => !matches_any_exclude combo M.excludeL)
            ++ M.includeL.map
              (fun inc => inc.foldl (fun m kv => insertKV kv.1 kv.2 m) [])).isEmpty
          then [[]]
          else (cartesian_product M.dimensions).filter
              (fun combo => !matches_any_exclude combo M.excludeL)
            ++ M.includeL.map
              (fun inc => inc.foldl (fun m kv => insertKV kv.1 kv.2 m) [])) := by
      unfold expand_matrix_inner
      rw [if_neg hboth]
    have hlen : ((cartesian_product M.dimensions).filter
          (fun combo => !matches_any_exclude combo M.excludeL)
        ++ M.includeL.map
          (fun inc => inc.foldl (fun m kv => insertKV kv.1 kv.2 m) [])).length
        = expandSizeFormula M := by
      unfold expandSizeFormula
      rw [List.length_append, List.length_map, hkept, hcart]
      by_cases hd : M.dimensions.isEmpty
      · have h0 : excludedCount M = 0 := by
          rw [hcart, if_pos hd] at hexcl
          omega
        rw [if_pos hd, if_pos hd, h0]
      · rw [if_neg hd, if_neg hd]
        rfl
    by_cases hempty : ((cartesian_product M.dimensions).filter
          (fun combo => !matches_any_exclude combo M.excludeL)
        ++ M.includeL.map
          (fun inc => inc.foldl (fun m kv => insertKV kv.1 kv.2 m) [])).isEmpty = true
    · have hf0 : expandSizeFormula M = 0 := by
        rw [← hlen]
        exact lengthZeroIffIsEmpty.mpr hempty
      rw [hexp, if_pos hempty, hf0]
      exact ⟨rfl, fun _ => rfl⟩
    · have hf : expandSizeFormula M ≠ 0 := by
        rw [← hlen]
        intro h0
        exact hempty (lengthZeroIffIsEmpty.mp h0)
      rw [hexp, if_neg hempty, if_neg hf]
      exact ⟨hlen, fun h => absurd h hf⟩

/-- Counterexample for C6 as stated: with empty dimensions, no excludes
and one include entry, `expand_matrix_inner` yields exactly one
combination, while the claimed formula `Π |dim_i| − #excluded +
|include|` (the empty product being 1) predicts two. -/
theorem c6_matrix_size_counterexample :
    (expand_matrix_inner c6Matrix).length = 1 ∧
    (c6Matrix.dimensions.map (fun d => d.2.length)).prod - excludedCount c6Matrix
      + c6Matrix.includeL.length = 2 := by
  constructor
  · rfl
  · rfl

theorem evaluate_single_full (input inner : String) (ctx : ExprContext) (v : String)
    (hm : findMatches input.data = [(input.data, inner.data)])
    (hrep : replaceAll input.data input.data v.data = v.data ++ [])
    (hexp : evaluate_expr inner ctx = .ok v) :
    evaluate input ctx = .ok v := by
  unfold evaluate
  rw [hm]
  have h2 : evaluateGo ctx [(input.data, inner.data)] input.data =
      match evaluate_expr inner ctx with
      | Except.error e => Except.error e
      | Except.ok value =>
        evaluateGo ctx [] (replaceAll input.data input.data value.data) := rfl
  rw [h2, hexp]
  show (match evaluateGo ctx [] (replaceAll input.data input.data v.data) with
    | Except.ok result => Except.ok (String.mk result)
    | Except.error e => Except.error e) = .ok v
  rw [hrep]
  show Except.ok (String.mk (v.data ++ [])) = .ok v
  rw [List.append_nil]

/-- C2: output flow between jobs.  If job `A`'s recorded context has
step `s` outputs with field `y` holding string `v`, and `A` declares
`outputs.x = "${{ steps.s.outputs.y }}"`, then: `run_job`'s output
evaluation records `{x: v}` for `A`; seeding a dependent job `B`'s
context from `needs = [A]` and the recorded parent outputs puts that map
under `needs.A`; and evaluating `${{ needs.A.outputs.x }}` in `B`'s
context yields `v`. -/
theorem c2_output_flow (v : String) (ctxA ctxB : ExprContext) (so : OutMap)
    (parent : List (String × OutMap))
    (hstep : mapGet ctxA.steps "s" = some so)
    (hy : mapGet so "y" = some (.str v))
    (hB : ctxB.needs =
      seedNeeds ["A"]
        (insertKV "A" (evalJobOutputs [("x", "$\x7b\x7b steps.s.outputs.y \x7d\x7d")] ctxA) parent)) :
    evalJobOutputs [("x", "$\x7b\x7b steps.s.outputs.y \x7d\x7d")] ctxA = [("x", .str v)] ∧
    ctxB.needs = [("A", [("x", .str v)])] ∧
    evaluate "$\x7b\x7b needs.A.outputs.x \x7d\x7d" ctxB = .ok v := by
  have hexpA : evaluate_expr "steps.s.outputs.y" ctxA = .ok v := by
    have h0 : evaluate_expr "steps.s.outputs.y" ctxA =
        match (mapGet ctxA.steps "s").bind (fun o => stepOutputs_get_string o "y") with
        | some str => Except.ok str
        | none =>
          Except.error (Error.expression ("Step output not found: " ++ "s" ++ "." ++ "y")) := rfl
    rw [h0, hstep]
    show (match stepOutputs_get_string so "y" with
      | some str => Except.ok str
      | none =>
        Except.error (Error.expression ("Step output not found: " ++ "s" ++ "." ++ "y"))) = .ok v
    unfold stepOutputs_get_string
    rw [hy]
  have hev : evaluate "$\x7b\x7b steps.s.outputs.y \x7d\x7d" ctxA = .ok v :=
    evaluate_single_full _ "steps.s.outputs.y" ctxA v rfl rfl hexpA
  have hjob : evalJobOutputs [("x", "$\x7b\x7b steps.s.outputs.y \x7d\x7d")] ctxA
      = [("x", .str v)] := by
    unfold evalJobOutputs
    rw [List.foldl_cons, List.foldl_nil]
    simp only [evaluate_value]
    rw [hev]
    rfl
  have hseed : seedNeeds ["A"]
      (insertKV "A" (evalJobOutputs [("x", "$\x7b\x7b steps.s.outputs.y \x7d\x7d")] ctxA) parent)
      = [("A", [("x", .str v)])] := by
    rw [hjob]
    unfold seedNeeds
    rw [List.foldl_cons, List.foldl_nil]
    have hg : mapGet (insertKV "A" [("x", .str v)] parent) "A" = some [("x", .str v)] := by
      unfold mapGet insertKV
      simp [List.lookup]
    rw [hg]
    rfl
  have hBneeds : ctxB.needs = [("A", [("x", .str v)])] := by rw [hB, hseed]
  have hexpB : evaluate_expr "needs.A.outputs.x" ctxB = .ok v := by
    have h0 : evaluate_expr "needs.A.outputs.x" ctxB =
        match (mapGet ctxB.needs "A").bind (fun o => jobOutputs_get_string o "x") with
        | some str => Except.ok str
        | none =>
          Except.error (Error.expression ("Job output not found: " ++ "A" ++ "." ++ "x")) := rfl
    rw [h0, hBneeds]
    rfl
  have hevB : evaluate "$\x7b\x7b needs.A.outputs.x \x7d\x7d" ctxB = .ok v :=
    evaluate_single_full _ "needs.A.outputs.x" ctxB v rfl rfl hexpB
  exact ⟨hjob, hBneeds, hevB⟩

/-- Witness for C2 at `v = "x1"` (the spec's S2 scenario). -/
theorem c2_output_flow_witness :
    evalJobOutputs [("x", "$\x7b\x7b steps.s.outputs.y \x7d\x7d")]
      { ExprContext.new with steps := [("s", [("y", .str "x1")])] } = [("x", .str "x1")] ∧
    ({ ExprContext.new with
        needs := seedNeeds ["A"]
          (insertKV "A"
            (evalJobOutputs [("x", "$\x7b\x7b steps.s.outputs.y \x7d\x7d")]
              { ExprContext.new with steps := [("s", [("y", .str "x1")])] }) []) } : ExprContext).needs
      = [("A", [("x", .str "x1")])] ∧
    evaluate "$\x7b\x7b needs.A.outputs.x \x7d\x7d"
      { ExprContext.new with
        needs := seedNeeds ["A"]
          (insertKV "A"
            (evalJobOutputs [("x", "$\x7b\x7b steps.s.outputs.y \x7d\x7d")]
              { ExprContext.new with steps := [("s", [("y", .str "x1")])] }) []) } = .ok "x1" :=
  c2_output_flow "x1" _ _ [("y", .str "x1")] [] rfl rfl rfl

theorem postAssertLoop_some {ext : ExtOracle} {ctx : ExprContext} {l : List String}
    {r : StepResult} (h : postAssertLoop ext ctx l = some r) : ∃ msg, r = .failed msg := by
  induction l with
  | nil => cases h
  | cons a t ih =>
    rw [postAssertLoop] at h
    revert h
    cases evaluate_assertion ext a ctx with
    | ok b =>
      cases b with
      | true => intro h; exact ih h
      | false => intro h; injection h with h2; exact ⟨_, h2.symm⟩
    | error e => intro h; injection h with h2; exact ⟨_, h2.symm⟩

theorem preAssertLoop_some {ext : ExtOracle} {ctx : ExprContext} {l : List String}
    {r : StepResult} (h : preAssertLoop ext ctx l = some r) : ∃ msg, r = .failed msg := by
  induction l with
  | nil => cases h
  | cons a t ih =>
    rw [preAssertLoop] at h
    revert h
    cases evaluate_assertion ext a ctx with
    | ok b =>
      cases b with
      | true => intro h; exact ih h
      | false => intro h; injection h with h2; exact ⟨_, h2.symm⟩
    | error e => intro h; injection h with h2; exact ⟨_, h2.symm⟩

theorem run_step_fst_ne_skipped {σ : Type} (E : StepEngine σ) (i : Nat) (step : Step)
    (w : σ) (c : ExprContext) : (run_step E i step w c).1 ≠ .skipped := by
  unfold run_step
  cases hpre : preAssertLoop E.ext c step.pre_assert with
  | some r =>
    obtain ⟨msg, rfl⟩ := preAssertLoop_some hpre
    simp
  | none =>
    cases E.registry step.uses with
    | none => simp
    | some f =>
      cases evalArgs E.ext c step.with_ with
      | error e => simp
      | ok args =>
        simp only []
        cases hfn : f w args with
        | mk w2 res =>
          cases res with
          | error e => simp
          | ok outs =>
            by_cases hpost : step.post_assert.isEmpty = true
            · simp [hpost]
            · simp only [hpost, Bool.false_eq_true, if_false]
              cases hpa : postAssertLoop E.ext
                  ((match step.id with
                    | some id => { c with steps := insertKV id outs c.steps }
                    | none => c).with_outputs outs) step.post_assert with
              | some r =>
                obtain ⟨msg, rfl⟩ := postAssertLoop_some hpa
                simp
              | none => simp

theorem run_step_events {σ : Type} (E : StepEngine σ) (i : Nat) (step : Step)
    (w : σ) (c : ExprContext) :
    ∀ e ∈ (run_step E i step w c).2.2.2, e = Ev.dispatch i := by
  unfold run_step
  cases preAssertLoop E.ext c step.pre_assert with
  | some r => simp
  | none =>
    cases E.registry step.uses with
    | none => simp
    | some f =>
      cases evalArgs E.ext c step.with_ with
      | error e => simp
      | ok args =>
        simp only []
        cases f w args with
        | mk w2 res =>
          cases res with
          | error e => simp
          | ok outs =>
            by_cases hpost : step.post_assert.isEmpty = true
            · simp [hpost]
            · simp only [hpost, Bool.false_eq_true, if_false]
              cases postAssertLoop E.ext
                  ((match step.id with
                    | some id => { c with steps := insertKV id outs c.steps }
                    | none => c).with_outputs outs) step.post_assert with
              | some r => simp
              | none => simp

theorem runJobStepsGo_skipAll {σ : Type} (E : StepEngine σ) (bs as : σ → σ) :
    ∀ (l : List (Nat × Step)) (w : σ) (c : ExprContext),
      runJobStepsGo E bs as l w c true =
        (l.map (fun p => (stepDisplayName p.2, StepResult.skipped)), [], w, c) := by
  intro l
  induction l with
  | nil => intro w c; rfl
  | cons p t ih =>
    intro w c
    rw [runJobStepsGo, if_pos rfl, ih]
    rfl

theorem enumFrom_getElem? (l : List Step) :
    ∀ (k n : Nat), (enumFrom k l)[n]? = l[n]?.map (fun s => (k + n, s)) := by
  induction l with
  | nil => intro k n; simp [enumFrom]
  | cons s t ih =>
    intro k n
    cases n with
    | zero => simp [enumFrom]
    | succ n' =>
      rw [enumFrom]
      rw [List.getElem?_cons_succ, List.getElem?_cons_succ, ih (k + 1) n']
      cases t[n']? with
      | none => rfl
      | some x => simp [Nat.add_assoc, Nat.add_comm 1 n']

theorem runJobStepsGo_cons_false {σ : Type} (E : StepEngine σ) (bs as : σ → σ)
    (k : Nat) (s : Step) (t : List Step) (w : σ) (c : ExprContext) :
    runJobStepsGo E bs as (enumFrom k (s :: t)) w c false =
      ((stepDisplayName s, (run_step E k s (bs w) c).1) ::
        (runJobStepsGo E bs as (enumFrom (k + 1) t) (as (run_step E k s (bs w) c).2.1)
          (run_step E k s (bs w) c).2.2.1
          ((run_step E k s (bs w) c).1.is_failed && !s.continue_on_error)).1,
        Ev.beforeStep k :: (run_step E k s (bs w) c).2.2.2 ++
          (Ev.afterStep k ::
            (runJobStepsGo E bs as (enumFrom (k + 1) t) (as (run_step E k s (bs w) c).2.1)
              (run_step E k s (bs w) c).2.2.1
              ((run_step E k s (bs w) c).1.is_failed && !s.continue_on_error)).2.1),
        (runJobStepsGo E bs as (enumFrom (k + 1) t) (as (run_step E k s (bs w) c).2.1)
          (run_step E k s (bs w) c).2.2.1
          ((run_step E k s (bs w) c).1.is_failed && !s.continue_on_error)).2.2.1,
        (runJobStepsGo E bs as (enumFrom (k + 1) t) (as (run_step E k s (bs w) c).2.1)
          (run_step E k s (bs w) c).2.2.1
          ((run_step E k s (bs w) c).1.is_failed && !s.continue_on_error)).2.2.2) := rfl

theorem stepsLoopMain {σ : Type} (E : StepEngine σ) (bs as : σ → σ) :
    ∀ (l : List Step) (k : Nat) (w : σ) (c : ExprContext) (i : Nat) (st : Step) (msg : String),
      l[i]? = some st →
      ((runJobStepsGo E bs as (enumFrom k l) w c false).1.map Prod.snd)[i]? =
        some (.failed msg) →
      (st.continue_on_error = false →
        ∀ j, i < j → j < l.length →
          ((runJobStepsGo E bs as (enumFrom k l) w c false).1.map Prod.snd)[j]? =
            some .skipped ∧
          ∀ e ∈ (runJobStepsGo E bs as (enumFrom k l) w c false).2.1,
            e ≠ .beforeStep (k + j) ∧ e ≠ .afterStep (k + j) ∧ e ≠ .dispatch (k + j)) ∧
      (st.continue_on_error = true → i + 1 < l.length →
        ((runJobStepsGo E bs as (enumFrom k l) w c false).1.map Prod.snd)[i + 1]? ≠
          some .skipped ∧
        Ev.beforeStep (k + (i + 1)) ∈ (runJobStepsGo E bs as (enumFrom k l) w c false).2.1) := by
  intro l
  induction l with
  | nil =>
    intro k w c i st msg hst _
    simp at hst
  | cons s t ih =>
    intro k w c i st msg hst hres
    have hne := run_step_fst_ne_skipped E k s (bs w) c
    have hevs := run_step_events E k s (bs w) c
    rw [runJobStepsGo_cons_false] at hres ⊢
    generalize hR : run_step E k s (bs w) c = R at hres hne hevs ⊢
    obtain ⟨r0, w2, c2, evs0⟩ := R
    simp only [] at hres hne hevs ⊢
    cases i with
    | zero =>
      obtain rfl : s = st := by simpa using hst
      have hr0 : r0 = .failed msg := by simpa using hres
      subst hr0
      constructor
      · intro hcont j hij hjlen
        have hflag : ((StepResult.failed msg).is_failed && !s.continue_on_error) = true := by
          rw [hcont]; rfl
        rw [hflag, runJobStepsGo_skipAll]
        obtain ⟨j', rfl⟩ : ∃ j', j = j' + 1 := ⟨j - 1, by omega⟩
        have hj't : j' < t.length := by
          have := hjlen
          simp only [List.length_cons] at this
          omega
        constructor
        · rw [List.map_cons, List.getElem?_cons_succ, List.map_map, List.getElem?_map,
            enumFrom_getElem?]
          rw [List.getElem?_eq_getElem (by simpa using hj't)]
          rfl
        · intro e he
          have hek : e = Ev.beforeStep k ∨ e = Ev.afterStep k ∨ e = Ev.dispatch k := by
            rcases List.mem_cons.mp he with rfl | he2
            · exact Or.inl rfl
            rcases List.mem_append.mp he2 with h3 | h4
            · exact Or.inr (Or.inr (hevs e h3))
            rcases List.mem_cons.mp h4 with rfl | h5
            · exact Or.inr (Or.inl rfl)
            · simp at h5
          rcases hek with rfl | rfl | rfl <;>
            refine ⟨?_, ?_, ?_⟩ <;> intro hco <;> simp at hco
      · intro hcont hlen
        have hflag : ((StepResult.failed msg).is_failed && !s.continue_on_error) = false := by
          rw [hcont]; rfl
        rw [hflag]
        obtain ⟨s1, t1, rfl⟩ : ∃ s1 t1, t = s1 :: t1 := by
          cases t with
          | nil => simp at hlen
          | cons a b => exact ⟨a, b, rfl⟩
        rw [runJobStepsGo_cons_false]
        have hne1 := run_step_fst_ne_skipped E (k + 1) s1 (bs (as w2)) c2
        generalize hR1 : run_step E (k + 1) s1 (bs (as w2)) c2 = R1 at hne1 ⊢
        obtain ⟨r1, w5, c5, evs1⟩ := R1
        simp only [] at hne1 ⊢
        constructor
        · rw [List.map_cons, List.getElem?_cons_succ, List.map_cons, List.getElem?_cons_zero]
          intro hcontra
          injection hcontra with hc2
          exact hne1 hc2
        · simp
      | succ i' =>
        have hst' : t[i']? = some st := by simpa using hst
        have hres0 : ((runJobStepsGo E bs as (enumFrom (k + 1) t) (as w2) c2
            (r0.is_failed && !s.continue_on_error)).1.map Prod.snd)[i']? =
            some (.failed msg) := by
          rw [List.map_cons, List.getElem?_cons_succ] at hres
          exact hres
        have hflag : (r0.is_failed && !s.continue_on_error) = false := by
          by_contra hfl
          have hfl' : (r0.is_failed && !s.continue_on_error) = true := by
            revert hfl; cases r0.is_failed && !s.continue_on_error <;> simp
          rw [hfl', runJobStepsGo_skipAll] at hres0
          rw [List.map_map, List.getElem?_map] at hres0
          cases hget : (enumFrom (k + 1) t)[i']? with
          | none => rw [hget] at hres0; cases hres0
          | some p =>
            rw [hget] at hres0
            injection hres0 with hres1
            cases hres1
        rw [hflag] at hres0 ⊢
        have IH := ih (k + 1) (as w2) c2 i' st msg hst' hres0
        constructor
        · intro hcont j hij hjlen
          obtain ⟨j', rfl⟩ : ∃ j', j = j' + 1 := ⟨j - 1, by omega⟩
          have hj' : i' < j' := by omega
          have hj't : j' < t.length := by
            simp only [List.length_cons] at hjlen
            omega
          have hIHa := IH.1 hcont j' hj' hj't
          constructor
          · rw [List.map_cons, List.getElem?_cons_succ]
            exact hIHa.1
          · intro e he
            have harith : k + (j' + 1) = (k + 1) + j' := by omega
            rcases List.mem_cons.mp he with rfl | he2
            · refine ⟨?_, ?_, ?_⟩ <;> intro hco <;> simp at hco
            rcases List.mem_append.mp he2 with h3 | h4
            · have := hevs e h3
              subst this
              refine ⟨?_, ?_, ?_⟩ <;> intro hco <;> simp at hco
            rcases List.mem_cons.mp h4 with rfl | h5
            · refine ⟨?_, ?_, ?_⟩ <;> intro hco <;> simp at hco
            · have := hIHa.2 e h5
              rw [harith]
              exact this
        · intro hcont hlen
          have hlen' : i' + 1 < t.length := by
            simp only [List.length_cons] at hlen
            omega
          have hIHb := IH.2 hcont hlen'
          constructor
          · rw [List.map_cons, List.getElem?_cons_succ]
            exact hIHb.1
          · have harith : k + (i' + 1 + 1) = (k + 1) + (i' + 1) := by omega
            rw [harith]
            simp only [List.mem_cons, List.mem_append]
            exact Or.inr (Or.inr hIHb.2)

/-- C3: skip propagation and continue-on-error in the step loop of
`run_job`.  If the step at position `i` is recorded `Failed`, then:
without `continue-on-error`, every later step is recorded `Skipped` and
no hook or step-body event is emitted for it; with `continue-on-error`,
the immediately following step still executes (its recorded result is
produced by `run_step`, never `Skipped`, and its before-step hook
runs). -/
theorem c3_skip_and_continue {σ : Type} (E : StepEngine σ) (bs as : σ → σ)
    (steps : List Step) (world : σ) (ctx : ExprContext)
    (i : Nat) (st : Step) (msg : String)
    (hstep : steps[i]? = some st)
    (hfail : ((runJobSteps E bs as steps world ctx).1.map Prod.snd)[i]? =
      some (.failed msg)) :
    (st.continue_on_error = false →
      ∀ j, i < j → j < steps.length →
        ((runJobSteps E bs as steps world ctx).1.map Prod.snd)[j]? = some .skipped ∧
        ∀ e ∈ (runJobSteps E bs as steps world ctx).2.1,
          e ≠ .beforeStep j ∧ e ≠ .afterStep j ∧ e ≠ .dispatch j) ∧
    (st.continue_on_error = true → i + 1 < steps.length →
      ((runJobSteps E bs as steps world ctx).1.map Prod.snd)[i + 1]? ≠ some .skipped ∧
      Ev.beforeStep (i + 1) ∈ (runJobSteps E bs as steps world ctx).2.1) := by
  have h := stepsLoopMain E bs as steps 0 world ctx i st msg hstep hfail
  simpa [runJobSteps, enumSteps, Nat.zero_add] using h

/-- Witness for C3: with `[fail, ok]` the second step is skipped; with
`[fail(continue-on-error), ok]` the second step is not skipped and its
before-step hook runs. -/
theorem c3_skip_and_continue_witness :
    ((runJobSteps c3Engine id id [c3FailStop, c3OkStep] () ExprContext.new).1.map
        Prod.snd)[1]? = some StepResult.skipped ∧
    ((runJobSteps c3Engine id id [c3FailCont, c3OkStep] () ExprContext.new).1.map
        Prod.snd)[1]? ≠ some StepResult.skipped ∧
    Ev.beforeStep 1 ∈ (runJobSteps c3Engine id id [c3FailCont, c3OkStep] ()
      ExprContext.new).2.1 := by
  have hA := (c3_skip_and_continue c3Engine id id [c3FailStop, c3OkStep] ()
      ExprContext.new 0 c3FailStop "boom" rfl rfl).1 rfl 1 (by decide) (by decide)
  have hB := (c3_skip_and_continue c3Engine id id [c3FailCont, c3OkStep] ()
      ExprContext.new 0 c3FailCont "boom" rfl rfl).2 rfl (by decide)
  exact ⟨hA.1, hB.1, hB.2⟩

theorem mapGet_insertKV_self {β : Type} (k : String) (v : β) (m : List (String × β)) :
    mapGet (insertKV k v m) k = some v := by
  unfold mapGet insertKV
  simp [List.lookup]

/-- C10: in `run_step`, the step's outputs are stored under
`ctx.steps[id]` before the post-assertions run (the failing assertion is
evaluated in the updated context augmented with `outputs`), and the
update is not rolled back on a post-assertion failure or error: the step
is reported `Failed` while the returned context still resolves
`steps.<id>.outputs.<field>` to the failed step's outputs. -/
theorem c10_outputs_survive_failed_post_assert {σ : Type} (E : StepEngine σ)
    (i : Nat) (step : Step) (world world' : σ) (ctx : ExprContext)
    (id : String) (f : σ → List (String × Value) → σ × Except String OutMap)
    (args : List (String × Value)) (outs : OutMap) (r : StepResult) (e : String)
    (hid : step.id = some id)
    (hpre : preAssertLoop E.ext ctx step.pre_assert = none)
    (hreg : E.registry step.uses = some f)
    (hargs : evalArgs E.ext ctx step.with_ = .ok args)
    (hrun : f world args = (world', .ok outs))
    (hfail : postAssertLoop E.ext
        (ExprContext.with_outputs { ctx with steps := insertKV id outs ctx.steps } outs)
        step.post_assert = some r) :
    run_step E i step world ctx =
      (r, world', { ctx with steps := insertKV id outs ctx.steps }, [.dispatch i]) ∧
    (∃ msg, r = .failed msg) ∧
    mapGet ({ ctx with steps := insertKV id outs ctx.steps }).steps id = some outs ∧
    (∀ fld w, mapGet outs fld = some w →
      evalValueParts { ctx with steps := insertKV id outs ctx.steps } e
        ["steps", id, "outputs", fld] = .ok w) := by
  have hnonempty : step.post_assert.isEmpty = false := by
    cases hpa : step.post_assert with
    | nil => rw [hpa] at hfail; cases hfail
    | cons a t => rfl
  refine ⟨?_, postAssertLoop_some hfail, mapGet_insertKV_self id outs ctx.steps, ?_⟩
  · unfold run_step
    rw [hpre, hreg, hargs]
    simp only [hrun, hid, hnonempty, Bool.false_eq_true, if_false]
    rw [hfail]
  · intro fld w hw
    have h0 : evalValueParts { ctx with steps := insertKV id outs ctx.steps } e
        ["steps", id, "outputs", fld] =
        match (mapGet ({ ctx with steps := insertKV id outs ctx.steps }).steps id).bind
            (fun o => mapGet o fld) with
        | some v => Except.ok v
        | none =>
          Except.error (Error.expression
            ("Step output not found: " ++ id ++ "." ++ fld)) := rfl
    rw [h0, mapGet_insertKV_self]
    show (match mapGet outs fld with
      | some v => Except.ok v
      | none =>
        Except.error (Error.expression
          ("Step output not found: " ++ id ++ "." ++ fld))) = Except.ok w
    rw [hw]

/-- Witness for C10: the concrete step `c10Step` fails its post-assertion
yet the returned context still resolves `steps.sid.outputs.k`. -/
theorem c10_outputs_survive_failed_post_assert_witness :
    run_step c10Engine 0 c10Step () ExprContext.new =
      (.failed "Post-assertion error: Expression error: Output not found: missing", (),
        { ExprContext.new with
          steps := insertKV "sid" [("k", Value.str "val")] ExprContext.new.steps },
        [.dispatch 0]) ∧
    mapGet ({ ExprContext.new with
        steps := insertKV "sid" [("k", Value.str "val")] ExprContext.new.steps }).steps
      "sid" = some [("k", Value.str "val")] ∧
    evalValueParts { ExprContext.new with
        steps := insertKV "sid" [("k", Value.str "val")] ExprContext.new.steps }
      "steps.sid.outputs.k" ["steps", "sid", "outputs", "k"] = .ok (.str "val") := by
  have h := c10_outputs_survive_failed_post_assert c10Engine 0 c10Step () () ExprContext.new
    "sid" (fun w _ => (w, Except.ok [("k", Value.str "val")])) [] [("k", Value.str "val")]
    (.failed "Post-assertion error: Expression error: Output not found: missing")
    "steps.sid.outputs.k" rfl rfl rfl rfl rfl rfl
  exact ⟨h.1, h.2.2.1, h.2.2.2 "k" (Value.str "val") rfl⟩

theorem lookup_mem {jobs : JobsMap} {k : String} {j : Job}
    (h : List.lookup k jobs = some j) : (k, j) ∈ jobs := by
  obtain ⟨l1, l2, rfl, -⟩ := List.lookup_eq_some_iff.mp h
  simp

theorem lookup_isSome_of_mem_keys {jobs : JobsMap} {k : String}
    (h : k ∈ jobs.map Prod.fst) : (List.lookup k jobs).isSome = true := by
  rw [List.lookup_isSome_iff]
  obtain ⟨p, hp, hfst⟩ := List.mem_map.mp h
  exact ⟨p, hp, by simp [hfst]⟩

theorem mem_keys_of_lookup_isSome {jobs : JobsMap} {k : String}
    (h : (List.lookup k jobs).isSome = true) : k ∈ jobs.map Prod.fst := by
  rw [List.lookup_isSome_iff] at h
  obtain ⟨p, hp, hk⟩ := h
  exact List.mem_map.mpr ⟨p, hp, ((by simpa using hk : k = p.1)).symm⟩

theorem needsOf_lookup_isSome {jobs : JobsMap} (hde : DepsExist jobs)
    {a d : String} (h : d ∈ needsOf jobs a) : (List.lookup d jobs).isSome = true := by
  unfold needsOf at h
  cases hl : List.lookup a jobs with
  | none => rw [hl] at h; cases h
  | some j =>
    rw [hl] at h
    exact hde (a, j) (lookup_mem hl) d h

theorem Reaches.append_edge {jobs : JobsMap} {a b d : String}
    (h : Reaches jobs a b) (hd : d ∈ needsOf jobs b) : Reaches jobs a d := by
  induction h with
  | step he => exact .trans he (.step hd)
  | trans he _ ih => exact .trans he (ih hd)

theorem visit_main (jobs : JobsMap) (hac : Acyclic jobs) (hde : DepsExist jobs) :
    ∀ (fuel : Nat) (name : String) (st : TopoState) (path : List String),
      TopoInv jobs st →
      (List.lookup name jobs).isSome = true →
      (∀ t ∈ st.temp, Reaches jobs t name) →
      st.temp.Nodup →
      (∀ t ∈ st.temp, (List.lookup t jobs).isSome = true) →
      jobs.length + 1 ≤ fuel + st.temp.length →
      ∃ st', visit jobs fuel name st path = .ok st' ∧
        TopoInv jobs st' ∧
        st'.temp = st.temp ∧
        (∀ x ∈ st.visited, x ∈ st'.visited) ∧
        name ∈ st'.visited ∧
        (∃ ext, st'.result = st.result ++ ext) ∧
        (∀ x ∈ st'.visited, x ∈ st.visited ∨ x = name ∨ Reaches jobs name x) := by
  intro fuel
  induction fuel with
  | zero =>
    intro name st path _ _ _ htempnd htempkeys hfuel
    exfalso
    have hsub : st.temp ⊆ jobs.map Prod.fst := fun {t} ht =>
      mem_keys_of_lookup_isSome (htempkeys t ht)
    have hcard : st.temp.toFinset.card = st.temp.length :=
      List.toFinset_card_of_nodup htempnd
    have hss : st.temp.toFinset ⊆ (jobs.map Prod.fst).toFinset := by
      intro a ha
      exact List.mem_toFinset.mpr (hsub (List.mem_toFinset.mp ha))
    have hcardle := Finset.card_le_card hss
    have hc2 : (jobs.map Prod.fst).toFinset.card ≤ (jobs.map Prod.fst).length :=
      List.toFinset_card_le _
    have hmaplen : (jobs.map Prod.fst).length = jobs.length := List.length_map _ _
    omega
  | succ fuel ih =>
    intro name st path hinv hlk htempreach htempnd htempkeys hfuel
    rw [visit]
    by_cases h1 : name ∈ st.temp
    · exact absurd (htempreach name h1) (hac name)
    rw [if_neg h1]
    by_cases h2 : name ∈ st.visited
    · rw [if_pos h2]
      exact ⟨st, rfl, hinv, rfl, fun x hx => hx, h2, ⟨[], by simp⟩, fun x hx => Or.inl hx⟩
    rw [if_neg h2]
    have hfold : ∀ (deps : List String), (∀ d ∈ deps, d ∈ needsOf jobs name) →
        ∀ (stc : TopoState), TopoInv jobs stc → stc.temp = name :: st.temp →
          ∃ st2, visitDeps (visit jobs fuel) jobs name deps stc (path ++ [name]) = .ok st2 ∧
            TopoInv jobs st2 ∧ st2.temp = stc.temp ∧
            (∀ x ∈ stc.visited, x ∈ st2.visited) ∧
            (∀ d ∈ deps, d ∈ st2.visited) ∧
            (∃ ext, st2.result = stc.result ++ ext) ∧
            (∀ x ∈ st2.visited, x ∈ stc.visited ∨ ∃ d ∈ deps, x = d ∨ Reaches jobs d x) := by
      intro deps
      induction deps with
      | nil =>
        intro _ stc hinvc htempc
        exact ⟨stc, rfl, hinvc, rfl, fun x hx => hx, by simp, ⟨[], by simp⟩,
          fun x hx => Or.inl hx⟩
      | cons d rest ihd =>
        intro hsub stc hinvc htempc
        have hdneed : d ∈ needsOf jobs name := hsub d (by simp)
        have hdlk : (List.lookup d jobs).isSome = true := needsOf_lookup_isSome hde hdneed
        rw [visitDeps]
        rw [if_neg (by rw [Option.isNone_iff_eq_none]; intro hn; rw [hn] at hdlk; cases hdlk)]
        have hreach : ∀ t ∈ stc.temp, Reaches jobs t d := by
          intro t ht
          rw [htempc] at ht
          rcases List.mem_cons.mp ht with rfl | ht'
          · exact .step hdneed
          · exact (htempreach t ht').append_edge hdneed
        have hndc : stc.temp.Nodup := by
          rw [htempc]
          exact List.nodup_cons.mpr ⟨h1, htempnd⟩
        have hkeysc : ∀ t ∈ stc.temp, (List.lookup t jobs).isSome = true := by
          intro t ht
          rw [htempc] at ht
          rcases List.mem_cons.mp ht with rfl | ht'
          · exact hlk
          · exact htempkeys t ht'
        have hfuelc : jobs.length + 1 ≤ fuel + stc.temp.length := by
          rw [htempc]
          simp only [List.length_cons]
          omega
        obtain ⟨std, hvd, hinvd, htempd, hmond, hdvis, ⟨ext1, hres1⟩, hclassd⟩ :=
          ih d stc (path ++ [name]) hinvc hdlk hreach hndc hkeysc hfuelc
        rw [hvd]
        obtain ⟨st2, hvr, hinv2, htemp2, hmon2, hvis2, ⟨ext2, hres2⟩, hclass2⟩ :=
          ihd (fun x hx => hsub x (by simp [hx])) std hinvd (htempd.trans htempc)
        refine ⟨st2, hvr, hinv2, htemp2.trans htempd, ?_, ?_, ?_, ?_⟩
        · intro x hx
          exact hmon2 x (hmond x hx)
        · intro e he
          rcases List.mem_cons.mp he with rfl | he'
          · exact hmon2 e (hdvis)
          · exact hvis2 e he'
        · exact ⟨ext1 ++ ext2, by rw [hres2, hres1, List.append_assoc]⟩
        · intro x hx
          rcases hclass2 x hx with hx' | ⟨d', hd', hcase⟩
          · rcases hclassd x hx' with hx'' | h
            · exact Or.inl hx''
            · exact Or.inr ⟨d, by simp, h⟩
          · exact Or.inr ⟨d', by simp [hd'], hcase⟩
    obtain ⟨st2, hvd, hinv2, htemp2, hmon2, hdeps2, ⟨ext, hres2⟩, hclass2⟩ :=
      hfold (needsOf jobs name) (fun d hd => hd) { st with temp := name :: st.temp }
        ⟨hinv.1, hinv.2.1, hinv.2.2.1, hinv.2.2.2⟩ rfl
    rw [hvd]
    have hnamenotvis : name ∉ st2.visited := by
      intro hmem
      rcases hclass2 name hmem with h | ⟨d, hd, hcase⟩
      · exact h2 h
      · rcases hcase with rfl | h
        · exact hac name (.step hd)
        · exact hac name (.trans hd h)
    have hnamenotres : name ∉ st2.result := fun hmem =>
      hnamenotvis ((hinv2.2.1 name).mpr hmem)
    have htempfilter : st2.temp.filter (fun x => x != name) = st.temp := by
      rw [htemp2]
      simp only [List.filter_cons, bne_self_eq_false, Bool.false_eq_true, if_false]
      exact List.filter_eq_self.mpr (fun a ha => by
        simp only [bne_iff_ne, ne_eq]
        intro hEq
        exact h1 (hEq ▸ ha))
    refine ⟨⟨st2.result ++ [name], name :: st2.visited,
      st2.temp.filter (fun x => x != name)⟩, rfl, ?_, htempfilter, ?_, by simp, ?_, ?_⟩
    · refine ⟨?_, ?_, ?_, ?_⟩
      · rw [List.nodup_append]
        exact ⟨hinv2.1, List.nodup_singleton name, by
          intro a ha hb
          simp only [List.mem_singleton] at hb
          exact hnamenotres (hb ▸ ha)⟩
      · intro x
        constructor
        · intro hx
          rcases List.mem_cons.mp hx with rfl | hx'
          · simp
          · simp only [List.mem_append]
            exact Or.inl ((hinv2.2.1 x).mp hx')
        · intro hx
          rcases List.mem_append.mp hx with hx' | hx'
          · exact List.mem_cons.mpr (Or.inr ((hinv2.2.1 x).mpr hx'))
          · simp only [List.mem_singleton] at hx'
            exact hx' ▸ List.mem_cons_self _ _
      · intro x hx
        rcases List.mem_append.mp hx with hx' | hx'
        · exact hinv2.2.2.1 x hx'
        · simp only [List.mem_singleton] at hx'
          exact hx' ▸ hlk
      · intro i x hget n hn
        have hlen : i < st2.result.length + 1 := by
          have := List.getElem?_eq_some.mp hget
          obtain ⟨hi, -⟩ := this
          simpa using hi
        by_cases hi : i < st2.result.length
        · rw [List.getElem?_append_left hi] at hget
          obtain ⟨j, hj, hjget⟩ := hinv2.2.2.2 i x hget n hn
          exact ⟨j, hj, by rw [List.getElem?_append_left (by omega)]; exact hjget⟩
        · have hieq : i = st2.result.length := by omega
          have hx : x = name := by
            rw [hieq, List.getElem?_concat_length] at hget
            exact (Option.some.injEq _ _ ▸ hget).symm
          subst hx
          have hnvis : n ∈ st2.visited := hdeps2 n hn
          have hnres : n ∈ st2.result := (hinv2.2.1 n).mp hnvis
          obtain ⟨j, hjget⟩ := List.mem_iff_getElem?.mp hnres
          have hjlt : j < st2.result.length := by
            obtain ⟨hj, -⟩ := List.getElem?_eq_some.mp hjget
            exact hj
          exact ⟨j, by omega, by rw [List.getElem?_append_left hjlt]; exact hjget⟩
    · intro x hx
      exact List.mem_cons.mpr (Or.inr (hmon2 x hx))
    · exact ⟨ext ++ [name], by rw [hres2]; simp⟩
    · intro x hx
      rcases List.mem_cons.mp hx with rfl | hx'
      · exact Or.inr (Or.inl rfl)
      · rcases hclass2 x hx' with h | ⟨d, hd, hcase⟩
        · exact Or.inl h
        · rcases hcase with rfl | h
          · exact Or.inr (Or.inr (.step hd))
          · exact Or.inr (Or.inr (.trans hd h))

theorem toposortGo_main (jobs : JobsMap) (hac : Acyclic jobs) (hde : DepsExist jobs) :
    ∀ (names : List String) (st : TopoState),
      TopoInv jobs st → st.temp = [] →
      (∀ n ∈ names, (List.lookup n jobs).isSome = true) →
      ∃ st', toposortGo jobs names st = .ok st' ∧ TopoInv jobs st' ∧ st'.temp = [] ∧
        (∀ x ∈ st.visited, x ∈ st'.visited) ∧ (∀ n ∈ names, n ∈ st'.visited) := by
  intro names
  induction names with
  | nil =>
    intro st hinv htemp _
    exact ⟨st, rfl, hinv, htemp, fun x hx => hx, by simp⟩
  | cons n rest ih =>
    intro st hinv htemp hnames
    rw [toposortGo]
    have hfuel : jobs.length + 1 ≤ (jobs.length + 1) + st.temp.length := by omega
    obtain ⟨st1, hv, hinv1, htemp1, hmon1, hnvis, -, -⟩ :=
      visit_main jobs hac hde (jobs.length + 1) n st [] hinv
        (hnames n (by simp))
        (by rw [htemp]; intro t ht; cases ht)
        (by rw [htemp]; exact List.nodup_nil)
        (by rw [htemp]; intro t ht; cases ht)
        hfuel
    rw [hv]
    obtain ⟨st', hgo, hinv', htemp', hmon', hvis'⟩ :=
      ih st1 hinv1 (htemp1.trans htemp) (fun m hm => hnames m (by simp [hm]))
    refine ⟨st', hgo, hinv', htemp', fun x hx => hmon' x (hmon1 x hx), ?_⟩
    intro m hm
    rcases List.mem_cons.mp hm with rfl | hm'
    · exact hmon' m hnvis
    · exact hvis' m hm'

/-- C1: for every jobs map with duplicate-free keys whose `needs` graph
is acyclic and whose `needs` targets all exist, `toposort_jobs` returns
`Ok(order)` where every job key appears exactly once, the order contains
only job keys, and every dependency of a job appears strictly before the
job. -/
theorem c1_toposort_correct (jobs : JobsMap)
    (hac : Acyclic jobs) (hde : DepsExist jobs) :
    ∃ order, toposort_jobs jobs = .ok order ∧
      (∀ name ∈ jobs.map Prod.fst, order.count name = 1) ∧
      (∀ name ∈ order, name ∈ jobs.map Prod.fst) ∧
      (∀ name jd, List.lookup name jobs = some jd →
        ∀ n ∈ jd.needs.as_vec,
          ∃ i j : Nat, j < i ∧ order[j]? = some n ∧ order[i]? = some name) := by
  have hinv0 : TopoInv jobs ⟨[], [], []⟩ := by
    refine ⟨List.nodup_nil, ?_, ?_, ?_⟩
    · intro x; simp
    · intro x hx; cases hx
    · intro i x hget; simp at hget
  obtain ⟨st', hgo, hinv', -, -, hvis'⟩ :=
    toposortGo_main jobs hac hde (jobs.map Prod.fst) ⟨[], [], []⟩ hinv0 rfl
      (fun n hn => lookup_isSome_of_mem_keys hn)
  refine ⟨st'.result, ?_, ?_, ?_, ?_⟩
  · unfold toposort_jobs
    rw [hgo]
  · intro name hname
    exact List.count_eq_one_of_mem hinv'.1 ((hinv'.2.1 name).mp (hvis' name hname))
  · intro name hname
    exact mem_keys_of_lookup_isSome (hinv'.2.2.1 name hname)
  · intro name jd hlk n hn
    have hname : name ∈ st'.result :=
      (hinv'.2.1 name).mp (hvis' name (mem_keys_of_lookup_isSome (by rw [hlk]; rfl)))
    obtain ⟨i, higet⟩ := List.mem_iff_getElem?.mp hname
    have hneeds : n ∈ needsOf jobs name := by
      unfold needsOf
      rw [hlk]
      exact hn
    obtain ⟨j, hj, hjget⟩ := hinv'.2.2.2 i name higet n hneeds
    exact ⟨i, j, hj, hjget, higet⟩

/-- Witness for C1 on the two-job map `c1Jobs` (`b` needs `a`). -/
theorem c1_toposort_correct_witness :
    ∃ order, toposort_jobs c1Jobs = .ok order ∧
      (∀ name ∈ c1Jobs.map Prod.fst, order.count name = 1) ∧
      (∀ name ∈ order, name ∈ c1Jobs.map Prod.fst) ∧
      (∀ name jd, List.lookup name c1Jobs = some jd →
        ∀ n ∈ jd.needs.as_vec,
          ∃ i j : Nat, j < i ∧ order[j]? = some n ∧ order[i]? = some name) := by
  have hedge : ∀ x y : String, y ∈ needsOf c1Jobs x → x = "b" ∧ y = "a" := by
    intro x y hy
    unfold needsOf c1Jobs at hy
    by_cases hxa : x = "a"
    · subst hxa
      simp [defJob, JobNeeds.as_vec] at hy
    by_cases hxb : x = "b"
    · subst hxb
      refine ⟨rfl, ?_⟩
      simpa [defJob, JobNeeds.as_vec, List.lookup] using hy
    · rw [List.lookup] at hy
      rw [show (x == "a") = false from by simp [hxa]] at hy
      rw [List.lookup] at hy
      rw [show (x == "b") = false from by simp [hxb]] at hy
      simp [List.lookup] at hy
  have hnoA : ∀ y, ¬ Reaches c1Jobs "a" y := by
    intro y hr
    cases hr with
    | step h => exact absurd (hedge "a" y h).1 (by decide)
    | trans h _ => exact absurd (hedge "a" _ h).1 (by decide)
  have hac : Acyclic c1Jobs := by
    intro a hr
    cases hr with
    | step h =>
      obtain ⟨h1, h2⟩ := hedge a a h
      exact absurd (h1.symm.trans h2) (by decide)
    | trans h r =>
      obtain ⟨h1, h2⟩ := hedge a _ h
      subst h1
      rw [h2] at r
      exact hnoA "b" r
  exact c1_toposort_correct c1Jobs hac (by decide)

end RustActions
